import Mathlib

/-!
Verification of the workflow-engine core (graph validation, topological
sorting, type inference, execution) against its natural-language
specification.  The definitions below are a shallow embedding of the
TypeScript sources:

  * `src/types/core.ts`        — data model (ports, nodes, edges, graphs)
  * `src/types/compatibility.ts` — `checkPortCompatibility`
  * `src/engine/graph-validator.ts` — `GraphValidator` (maps, adjacency,
    cycle detection, Kahn topological sort, the individual checks,
    `validate`)
  * `src/engine/type-inference.ts`  — `TypeInferenceEngine`
  * `src/engine/executor.ts`        — `WorkflowExecutor`

JavaScript `Map`s are embedded as association lists with JS `Map`
semantics: `set` on an existing key replaces the entry in place (keys keep
first-insertion order), otherwise the entry is appended; iteration order is
the list order.  JS `number` is embedded as `Int` (no claim exercises
non-integer arithmetic), runtime values as the inductive `Value`.
-/

namespace Workflow

/-- JS runtime values flowing through the executor (the `unknown` payloads
of the TypeScript code).  JS object/array values are embedded
structurally. -/
inductive Value where
  | undef
  | null
  | bool (b : Bool)
  | num (n : Int)
  | str (s : String)
  | arr (elems : List Value)
  | obj (fields : List (String × Value))

mutual

/-- Structural equality test on embedded JS values. -/
def Value.beq : Value → Value → Bool
  | .undef, .undef => true
  | .null, .null => true
  | .bool a, .bool b => a == b
  | .num a, .num b => a == b
  | .str a, .str b => a == b
  | .arr a, .arr b => Value.beqList a b
  | .obj a, .obj b => Value.beqFields a b
  | _, _ => false

/-- Elementwise equality of value lists. -/
def Value.beqList : List Value → List Value → Bool
  | [], [] => true
  | a :: as', b :: bs => Value.beq a b && Value.beqList as' bs
  | _, _ => false

/-- Fieldwise equality of value records. -/
def Value.beqFields : List (String × Value) → List (String × Value) → Bool
  | [], [] => true
  | (k, a) :: as', (l, b) :: bs => k == l && Value.beq a b && Value.beqFields as' bs
  | _, _ => false

end

instance : BEq Value := ⟨Value.beq⟩

/-- JS truthiness (`Boolean(x)`), used by `logic.if` and `inputs.initial || 0`. -/
def jsTruthy : Value → Bool
  | .undef => false
  | .null => false
  | .bool b => b
  | .num n => n != 0
  | .str s => s ≠ ""
  | .arr _ => true
  | .obj _ => true

/-- JS string coercion as used by template literals in the executor's log
lines.  Approximate for arrays/objects, which no claim inspects. -/
def jsToString : Value → String
  | .undef => "undefined"
  | .null => "null"
  | .bool b => if b then "true" else "false"
  | .num n => toString n
  | .str s => s
  | .arr _ => ""
  | .obj _ => "[object Object]"

/-- JS `+` as used by `transform.reduce` (`acc + x`): numeric addition,
otherwise string concatenation of the coercions.  No claim exercises the
remaining JS coercion corner cases. -/
def jsAdd : Value → Value → Value
  | .num a, .num b => .num (a + b)
  | a, b => .str (jsToString a ++ jsToString b)

/-- JS strict equality `===` on the values of `logic.compare`.  Object and
array operands compare structurally here (JS uses reference identity,
a heap notion outside this embedding); no claim exercises that case. -/
def jsStrictEq (a b : Value) : Bool := a == b

section AssocMap

variable {α : Type}

/-- Lookup in an association list (JS `Map.get`). -/
def lookupM (m : List (String × α)) (k : String) : Option α :=
  (m.find? (fun p => p.1 == k)).map (fun p => p.2)

/-- Lookup with a default (`map.get(k) || d` on non-falsy defaults). -/
def getD (m : List (String × α)) (k : String) (d : α) : α :=
  (lookupM m k).getD d

/-- JS `Map.set`: replace the (unique) entry with this key in place,
otherwise append. -/
def insertEntry (m : List (String × α)) (k : String) (v : α) : List (String × α) :=
  match m with
  | [] => [(k, v)]
  | p :: rest => if p.1 == k then (k, v) :: rest else p :: insertEntry rest k v

/-- `new Map(pairs)`: fold `set` over the pair list (later pairs with the
same key overwrite earlier ones; keys keep first-occurrence order). -/
def buildMap (l : List (String × α)) : List (String × α) :=
  l.foldl (fun m p => insertEntry m p.1 p.2) []

end AssocMap

/-! ## Data model (`src/types/core.ts`)

Branded ids are plain strings in the embedding.  The presentation-only
`position`, `label`/`description` strings kept where the executor logs
them, and the cached `valid`/`errorMessage` fields of `Edge` (never read by
the core algorithms) are dropped. -/

/-- `PortType`: closed tagged variant; `custom` carries a type name. -/
inductive PortType where
  | any
  | string
  | number
  | boolean
  | object
  | array
  | void
  | custom (typeName : String)
deriving DecidableEq, Repr

/-- The `kind` discriminant string of a `PortType`. -/
def PortType.kind : PortType → String
  | .any => "any"
  | .string => "string"
  | .number => "number"
  | .boolean => "boolean"
  | .object => "object"
  | .array => "array"
  | .void => "void"
  | .custom _ => "custom"

/-- A port (input or output — the direction is given by which node list it
sits in). -/
structure Port where
  id : String
  name : String
  portType : PortType
  required : Bool
deriving DecidableEq, Repr

/-- A workflow node.  `category` and `type` are the discriminant strings;
`data` is the open configuration bag. -/
structure WorkflowNode where
  id : String
  type : String
  category : String
  label : String
  inputs : List Port
  outputs : List Port
  data : List (String × Value)

/-- A directed edge from an output port to an input port. -/
structure Edge where
  id : String
  source : String
  sourcePort : String
  target : String
  targetPort : String
deriving DecidableEq, Repr

/-- A workflow graph snapshot. -/
structure WorkflowGraph where
  id : String
  name : String
  nodes : List WorkflowNode
  edges : List Edge

/-! ## Port compatibility (`src/types/compatibility.ts`) -/

/-- Result of `checkPortCompatibility`. -/
structure ConnectionValidation where
  valid : Bool
  sourceType : String
  targetType : String
  errorMessage : Option String
deriving DecidableEq, Repr

/-- `checkPortCompatibility`, translated clause by clause:
1. either kind `any` → valid;
2. equal kinds → valid (note: this clause also fires when both kinds are
   `custom`, before the name comparison below is reached);
3. both `custom` and equal type names → valid (reporting the type names);
4. otherwise invalid with a mismatch message. -/
def checkPortCompatibility (sourcePort targetPort : PortType) : ConnectionValidation :=
  if sourcePort.kind == "any" || targetPort.kind == "any" then
    ⟨true, sourcePort.kind, targetPort.kind, none⟩
  else if sourcePort.kind == targetPort.kind then
    ⟨true, sourcePort.kind, targetPort.kind, none⟩
  else
    let mismatch : ConnectionValidation :=
      ⟨false, sourcePort.kind, targetPort.kind,
        some ("Type mismatch: cannot connect " ++ sourcePort.kind ++ " to " ++ targetPort.kind)⟩
    match sourcePort, targetPort with
    | .custom sn, .custom tn => if sn == tn then ⟨true, sn, tn, none⟩ else mismatch
    | _, _ => mismatch

/-! ## Graph validator (`src/engine/graph-validator.ts`)

The `GraphValidator` constructor collapses the node and edge lists into
id-keyed JS `Map`s (`nodesMap`, `edgesMap`) and builds the adjacency lists
from the surviving edges; every check except `checkDuplicateIds` works on
those maps. -/

/-- `this.nodes = new Map(graph.nodes.map(n => [n.id, n]))`. -/
def nodesMap (g : WorkflowGraph) : List (String × WorkflowNode) :=
  buildMap (g.nodes.map (fun n => (n.id, n)))

/-- `this.edges = new Map(graph.edges.map(e => [e.id, e]))`. -/
def edgesMap (g : WorkflowGraph) : List (String × Edge) :=
  buildMap (g.edges.map (fun e => (e.id, e)))

/-- `this.nodes.keys()` in iteration order. -/
def nodeKeys (g : WorkflowGraph) : List String :=
  (nodesMap g).map (fun p => p.1)

/-- `this.nodes.values()` in iteration order. -/
def nodeValues (g : WorkflowGraph) : List WorkflowNode :=
  (nodesMap g).map (fun p => p.2)

/-- `this.edges.values()` in iteration order. -/
def edgeValues (g : WorkflowGraph) : List Edge :=
  (edgesMap g).map (fun p => p.2)

/-- `buildAdjacencyList`: seed every node key with `[]`, then for each
surviving edge push the target onto the source's list (`Map.set` on a
missing source key appends a fresh entry, so sources that are not nodes
gain adjacency entries too). -/
def buildAdjacencyList (g : WorkflowGraph) : List (String × List String) :=
  (edgeValues g).foldl
    (fun m e => insertEntry m e.source (getD m e.source [] ++ [e.target]))
    ((nodeKeys g).foldl (fun m k => insertEntry m k []) [])

/-- `buildReverseAdjacencyList` (unused by the claims, kept for parity). -/
def buildReverseAdjacencyList (g : WorkflowGraph) : List (String × List String) :=
  (edgeValues g).foldl
    (fun m e => insertEntry m e.target (getD m e.target [] ++ [e.source]))
    ((nodeKeys g).foldl (fun m k => insertEntry m k []) [])

/-- The closed variant of graph validation errors. -/
inductive GraphValidationError where
  | cycle (nodes : List String)
  | unsatisfiedInput (nodeId portId : String)
  | invalidConnection (edgeId reason : String)
  | orphanNode (nodeId : String)
  | duplicateNodeId (nodeId : String)
  | duplicateEdgeId (edgeId : String)
  | missingNode (nodeId referencedBy : String)
deriving DecidableEq, Repr

/-- Result of `detectCycles`. -/
structure CycleDetectionResult where
  hasCycle : Bool
  cycle : Option (List String)
deriving DecidableEq, Repr

/-- One `dfs(nodeId, path)` call of `detectCycles`: mark `u` visited, push
it onto the path (the recursion stack is exactly the set of path entries,
and popping on return is implicit — the caller resumes with its own
`path`), then walk the neighbors.  An unvisited neighbor is recursed into;
a visited neighbor on the recursion stack closes a cycle, reported as
`path.slice(path.indexOf(neighbor))`.  A `some` accumulator short-circuits
the remaining neighbors exactly as the TS `return true` does.  The fuel
bounds the recursion depth; each nested call strictly grows `visited`, so
with the initial fuel of `dfsFuel` the `0` case (which conservatively
reports a cycle) is unreachable. -/
def dfsVisit (adj : List (String × List String)) :
    Nat → String → List String → List String → Option (List String) × List String
  | 0, _, _, visited => (some [], visited)
  | fuel + 1, u, path, visited =>
      (getD adj u []).foldl
        (fun acc n =>
          match acc with
          | (some c, vis) => (some c, vis)
          | (none, vis) =>
              if n ∈ vis then
                if n ∈ path ++ [u] then
                  (some ((path ++ [u]).dropWhile (fun x => x ≠ n)), vis)
                else (none, vis)
              else dfsVisit adj fuel n (path ++ [u]) vis)
        (none, u :: visited)

/-- The root loop of `detectCycles`: start a DFS at every unvisited node
key. -/
def dfsRoots (adj : List (String × List String)) (fuel : Nat) :
    List String → List String → Option (List String) × List String
  | [], visited => (none, visited)
  | k :: ks, visited =>
      if k ∈ visited then dfsRoots adj fuel ks visited
      else
        match dfsVisit adj fuel k [] visited with
        | (some c, vis) => (some c, vis)
        | (none, vis) => dfsRoots adj fuel ks vis

/-- Fuel bound for the DFS: one unit per id that can ever be visited
(node keys plus every neighbor occurrence), plus slack. -/
def dfsFuel (g : WorkflowGraph) : Nat :=
  (nodeKeys g).length + (((buildAdjacencyList g).map (fun p => p.2.length)).sum) + 1

/-- `detectCycles()`. -/
def detectCycles (g : WorkflowGraph) : CycleDetectionResult :=
  match (dfsRoots (buildAdjacencyList g) (dfsFuel g) (nodeKeys g) []).1 with
  | some c => ⟨true, some c⟩
  | none => ⟨false, none⟩

/-- In-degree initialisation of `topologicalSort`: every node key at `0`,
then one increment per neighbor occurrence across all adjacency lists
(`Map.set` adds entries for targets that are not node keys). -/
def initInDegrees (g : WorkflowGraph) : List (String × Int) :=
  (((buildAdjacencyList g).map (fun p => p.2)).flatten).foldl
    (fun m n => insertEntry m n (getD m n 0 + 1))
    ((nodeKeys g).foldl (fun m k => insertEntry m k 0) [])

/-- The neighbor fold of one Kahn iteration: decrement each neighbor's
degree and collect those that reach exactly `0` (in order). -/
def kahnDecr (inDeg : List (String × Int)) (ns : List String) :
    List (String × Int) × List String :=
  ns.foldl
    (fun acc n =>
      let d := getD acc.1 n 0 - 1
      (insertEntry acc.1 n d, if d = 0 then acc.2 ++ [n] else acc.2))
    (inDeg, [])

/-- Sum of the nonnegative parts of the recorded degrees (termination
measure for the Kahn loop). -/
def degSum (m : List (String × Int)) : Nat :=
  (m.map (fun p => p.2.toNat)).sum

/-- The `while (queue.length > 0)` loop of `topologicalSort`: dequeue,
append to the result, decrement neighbors, enqueue fresh zeros.  The fuel
bounds the number of iterations; `kahnDecr_measure` shows that
`queue.length + degSum inDeg` strictly decreases per iteration, so with the
initial fuel of `kahnFuel` the `0` case is unreachable. -/
def kahnLoop (adj : List (String × List String)) :
    Nat → List String → List String → List (String × Int) → List String
  | 0, _, result, _ => result
  | _ + 1, [], result, _ => result
  | fuel + 1, q :: qs, result, inDeg =>
      let step := kahnDecr inDeg (getD adj q [])
      kahnLoop adj fuel (qs ++ step.2) (result ++ [q]) step.1

/-- Result of `topologicalSort`. -/
inductive TopSortResult where
  | success (order : List String)
  | failure (reason : String) (problematicNodes : List String)
deriving DecidableEq, Repr

/-- Sufficient fuel for the Kahn loop: the initial queue is a subset of the
in-degree entries, so `entries + degSum` bounds the loop measure. -/
def kahnFuel (g : WorkflowGraph) : Nat :=
  (initInDegrees g).length + degSum (initInDegrees g) + 1

/-- The Kahn run of `topologicalSort`: seed the queue with zero-in-degree
entries (in entry order) and loop. -/
def kahnRun (g : WorkflowGraph) : List String :=
  let inDeg := initInDegrees g
  kahnLoop (buildAdjacencyList g) (kahnFuel g)
    ((inDeg.filter (fun p => p.2 == 0)).map (fun p => p.1)) [] inDeg

/-- `topologicalSort()`: failure when not all node keys were processed;
`problematicNodes` are the node keys absent from the partial order. -/
def topologicalSort (g : WorkflowGraph) : TopSortResult :=
  let result := kahnRun g
  if result.length ≠ (nodesMap g).length then
    .failure "Graph contains cycles" ((nodeKeys g).filter (fun id => ! result.contains id))
  else
    .success result

/-- `checkInputSatisfaction`: for every required input of every node in the
node map, some surviving edge must target that exact node/port pair.
Errors are produced in iteration order (the nested `for` loops with
`errors.push` are written as `bind`/`filterMap`, which accumulates in the
same order). -/
def checkInputSatisfaction (g : WorkflowGraph) : List GraphValidationError :=
  (nodeValues g).flatMap (fun node =>
    node.inputs.filterMap (fun input =>
      if input.required &&
          !((edgeValues g).any (fun e => e.target == node.id && e.targetPort == input.id)) then
        some (.unsatisfiedInput node.id input.id)
      else none))

/-- `checkConnectionValidity`: edges with missing endpoint nodes are
skipped (left to `checkMissingNodes`); unresolvable ports yield
"Port not found"; otherwise the compatibility checker decides. -/
def checkConnectionValidity (g : WorkflowGraph) : List GraphValidationError :=
  (edgeValues g).filterMap (fun e =>
    match lookupM (nodesMap g) e.source, lookupM (nodesMap g) e.target with
    | some sourceNode, some targetNode =>
        match sourceNode.outputs.find? (fun p => p.id == e.sourcePort),
              targetNode.inputs.find? (fun p => p.id == e.targetPort) with
        | some sourcePortDef, some targetPortDef =>
            let c := checkPortCompatibility sourcePortDef.portType targetPortDef.portType
            if c.valid then none
            else some (.invalidConnection e.id (c.errorMessage.getD "Type mismatch"))
        | _, _ => some (.invalidConnection e.id "Port not found")
    | _, _ => none)

/-- `checkOrphanNodes`: with more than one node in the node map, flag every
node key touched by no surviving edge. -/
def checkOrphanNodes (g : WorkflowGraph) : List GraphValidationError :=
  let connected := (edgeValues g).flatMap (fun e => [e.source, e.target])
  (nodeKeys g).filterMap (fun id =>
    if !(connected.contains id) && decide (1 < (nodesMap g).length) then
      some (.orphanNode id)
    else none)

/-- The seen-before scan of `checkDuplicateIds`: every occurrence of an id
that was already seen is reported, in order. -/
def dupScan : List String → List String → List String
  | _, [] => []
  | seen, x :: xs =>
      if x ∈ seen then x :: dupScan seen xs else dupScan (x :: seen) xs

/-- `checkDuplicateIds`: runs over the raw `graph.nodes`/`graph.edges`
lists (this is the one check that sees duplicates at all). -/
def checkDuplicateIds (g : WorkflowGraph) : List GraphValidationError :=
  (dupScan [] (g.nodes.map (fun n => n.id))).map .duplicateNodeId ++
  (dupScan [] (g.edges.map (fun e => e.id))).map .duplicateEdgeId

/-- `checkMissingNodes`: every surviving edge endpoint absent from the node
map is reported. -/
def checkMissingNodes (g : WorkflowGraph) : List GraphValidationError :=
  (edgeValues g).flatMap (fun e =>
    (if (lookupM (nodesMap g) e.source).isNone then [.missingNode e.source e.id] else []) ++
    (if (lookupM (nodesMap g) e.target).isNone then [.missingNode e.target e.id] else []))

/-- Result of `validate`. -/
structure ValidateResult where
  valid : Bool
  errors : List GraphValidationError
deriving DecidableEq, Repr

/-- `validate()`: all checks run, findings accumulate in order, `valid` iff
no error. -/
def validate (g : WorkflowGraph) : ValidateResult :=
  let cycleErrors :=
    match detectCycles g with
    | ⟨true, c⟩ => [GraphValidationError.cycle (c.getD [])]
    | ⟨false, _⟩ => []
  let errors :=
    checkDuplicateIds g ++ checkMissingNodes g ++ cycleErrors ++
    checkInputSatisfaction g ++ checkConnectionValidity g ++ checkOrphanNodes g
  ⟨errors.isEmpty, errors⟩

/-! ## Type inference (`src/engine/type-inference.ts`) -/

/-- The key `nodeId:portId` of the inferred-type and output stores. -/
def mkKey (nodeId portId : String) : String := nodeId ++ ":" ++ portId

/-- An inferred port type with optional provenance (`inferredFrom`). -/
structure InferredType where
  nodeId : String
  portId : String
  portType : PortType
  inferredFrom : Option (String × String)
deriving DecidableEq, Repr

/-- `propagateTypes(sourceNodeId)`: for each raw edge leaving the node (in
edge-list order), copy the inferred type at the source key, if present, to
the target key with provenance. -/
def propagateTypes (g : WorkflowGraph) (sourceNodeId : String)
    (m : List (String × InferredType)) : List (String × InferredType) :=
  (g.edges.filter (fun e => e.source == sourceNodeId)).foldl
    (fun m e =>
      match lookupM m (mkKey e.source e.sourcePort) with
      | some sourceType =>
          insertEntry m (mkKey e.target e.targetPort)
            ⟨e.target, e.targetPort, sourceType.portType, some (e.source, e.sourcePort)⟩
      | none => m)
    m

/-- `inferNodeTypes(nodeId)`: resolve the node by first match in the raw
node list, record its declared output types (no provenance), then
propagate along its outgoing edges. -/
def inferNodeTypes (g : WorkflowGraph) (nodeId : String)
    (m : List (String × InferredType)) : List (String × InferredType) :=
  match g.nodes.find? (fun n => n.id == nodeId) with
  | none => m
  | some node =>
      propagateTypes g nodeId
        (node.outputs.foldl
          (fun m output =>
            insertEntry m (mkKey nodeId output.id) ⟨nodeId, output.id, output.portType, none⟩)
          m)

/-- `inferTypes()`: clear the store, get the topological order (throwing —
here: returning the error message — when it fails, with the store left
empty), then process nodes in order.  The first component is the thrown
error, the second the engine's inferred-type store afterwards. -/
def inferTypesRun (g : WorkflowGraph) : Option String × List (String × InferredType) :=
  match topologicalSort g with
  | .failure _ _ => (some "Cannot infer types: graph contains cycles", [])
  | .success order => (none, order.foldl (fun m nodeId => inferNodeTypes g nodeId m) [])

/-- `isInferenceComplete()`: every required input of every raw node has an
entry in the store. -/
def isInferenceComplete (g : WorkflowGraph) (m : List (String × InferredType)) : Bool :=
  g.nodes.all (fun n =>
    n.inputs.all (fun i => !i.required || (lookupM m (mkKey n.id i.id)).isSome))

/-- The report of `getInferenceReport()`. -/
structure InferenceReport where
  complete : Bool
  totalPorts : Nat
  inferredPorts : Nat
  missingInferences : List (String × String)
deriving DecidableEq, Repr

/-- `getInferenceReport()`: `totalPorts` counts the input ports of the raw
nodes, `inferredPorts` is the size of the store, `missingInferences` the
required inputs without entries, `complete` iff none are missing. -/
def getInferenceReport (g : WorkflowGraph) (m : List (String × InferredType)) :
    InferenceReport :=
  let missing := g.nodes.flatMap (fun n =>
    n.inputs.filterMap (fun i =>
      if i.required && (lookupM m (mkKey n.id i.id)).isNone then some (n.id, i.id) else none))
  ⟨missing.isEmpty, (g.nodes.map (fun n => n.inputs.length)).sum, m.length, missing⟩

/-! ## Workflow executor (`src/engine/executor.ts`)

The mutable per-run `ExecutionState` is threaded explicitly; a thrown
JS error is an `Except`-style error value carrying the message and the
state (its logs) at the moment of the throw, which the `try/catch` at the
top of `execute` turns into a failure result.  Log lines drop the
`new Date().toISOString()` timestamp prefix (wall-clock time is outside
the embedding). -/

/-- The execution context handed to `execute`. -/
structure ExecutionContext where
  workflowId : String
  vars : List (String × Value)
  timestamp : Int

/-- The per-run mutable state of a `WorkflowExecutor`. -/
structure ExecState where
  nodeOutputs : List (String × Value)
  executedNodes : List String
  logs : List String

/-- Result of `execute`. -/
inductive ExecutionResult where
  | success (output : Value) (logs : List String)
  | failure (error : String) (logs : List String)

/-- `this.log(message)`. -/
def logMsg (st : ExecState) (message : String) : ExecState :=
  { st with logs := st.logs ++ [message] }

/-- `gatherInputs`: for each input port in order, find the first raw edge
targeting it and read the source's stored output (possibly `undefined`);
a missing edge on a required port throws. -/
def gatherInputsGo (g : WorkflowGraph) (node : WorkflowNode) (st : ExecState) :
    List Port → List (String × Value) → Except String (List (String × Value))
  | [], acc => .ok acc
  | input :: rest, acc =>
      match g.edges.find? (fun e => e.target == node.id && e.targetPort == input.id) with
      | some e =>
          gatherInputsGo g node st rest
            (insertEntry acc input.id (getD st.nodeOutputs (mkKey e.source e.sourcePort) .undef))
      | none =>
          if input.required then
            .error ("Required input not connected: " ++ node.id ++ ":" ++ input.id)
          else
            gatherInputsGo g node st rest acc

/-- `gatherInputs(node)`. -/
def gatherInputs (g : WorkflowGraph) (node : WorkflowNode) (st : ExecState) :
    Except String (List (String × Value)) :=
  gatherInputsGo g node st node.inputs []

/-- `executeTrigger`. -/
def executeTrigger (node : WorkflowNode) (context : ExecutionContext) :
    List (String × Value) :=
  if node.type == "trigger.http" then
    [("request", .obj [("method", .str "GET"), ("url", .str "/"),
                       ("timestamp", .num context.timestamp)])]
  else if node.type == "trigger.timer" then
    [("timestamp", .num context.timestamp)]
  else if node.type == "trigger.manual" then
    [("data", (lookupM context.vars "triggerData").getD .undef)]
  else
    []

/-- `executeLogic`. -/
def executeLogic (node : WorkflowNode) (inputs : List (String × Value)) :
    List (String × Value) :=
  if node.type == "logic.if" then
    let condition := jsTruthy (getD inputs "condition" .undef)
    [("true", .bool condition), ("false", .bool (!condition))]
  else if node.type == "logic.compare" then
    [("result", .bool (jsStrictEq (getD inputs "a" .undef) (getD inputs "b" .undef)))]
  else if node.type == "logic.switch" then
    [("case1", .bool true), ("case2", .bool false), ("default", .bool false)]
  else
    []

/-- `executeTransform`: map and filter are identity passthroughs on arrays,
reduce folds `+` from `inputs.initial || 0`; every other case (including a
non-array input) falls through to `{output: input}`. -/
def executeTransform (node : WorkflowNode) (inputs : List (String × Value)) :
    List (String × Value) :=
  let input := getD inputs "input" .undef
  match input with
  | .arr xs =>
      if node.type == "transform.map" then [("output", .arr xs)]
      else if node.type == "transform.filter" then [("output", .arr xs)]
      else if node.type == "transform.reduce" then
        let start := getD inputs "initial" .undef
        [("output", xs.foldl jsAdd (if jsTruthy start then start else .num 0))]
      else [("output", input)]
  | _ => [("output", input)]

/-- `executeEffect` (simulated side effects; each recognised type logs a
line). -/
def executeEffect (node : WorkflowNode) (inputs : List (String × Value)) (st : ExecState) :
    List (String × Value) × ExecState :=
  if node.type == "effect.http" then
    ([("response", .obj [("status", .num 200), ("data", .obj [])])],
     logMsg st ("HTTP Request: " ++ jsToString (getD inputs "url" .undef)))
  else if node.type == "effect.email" then
    ([("result", .obj [("sent", .bool true)])],
     logMsg st ("Email sent to: " ++ jsToString (getD inputs "to" .undef)))
  else if node.type == "effect.db" then
    ([("result", .obj [("written", .bool true)])],
     logMsg st ("DB Write: " ++ jsToString (getD inputs "collection" .undef)))
  else
    ([], st)

/-- `executeData`. -/
def executeData (node : WorkflowNode) : List (String × Value) :=
  if node.type == "data.constant" then
    [("value", (lookupM node.data "value").getD .undef)]
  else if node.type == "data.variable" then
    [("value", (lookupM node.data "variableName").getD .undef)]
  else
    []

/-- `executeNodeLogic`: dispatch on the node category; an unrecognised
category throws the exhaustiveness error. -/
def executeNodeLogic (node : WorkflowNode) (inputs : List (String × Value))
    (context : ExecutionContext) (st : ExecState) :
    Except (String × ExecState) (List (String × Value) × ExecState) :=
  if node.category == "trigger" then .ok (executeTrigger node context, st)
  else if node.category == "logic" then .ok (executeLogic node inputs, st)
  else if node.category == "transform" then .ok (executeTransform node inputs, st)
  else if node.category == "effect" then .ok (executeEffect node inputs st)
  else if node.category == "data" then .ok (executeData node, st)
  else .error ("Unknown node category: " ++ node.category, st)

/-- `Set.add` on the executed-node set (insertion order, idempotent). -/
def addExecuted (s : List String) (nodeId : String) : List String :=
  if s.contains nodeId then s else s ++ [nodeId]

/-- `executeNode(nodeId, context)`: resolve the node (first match in the
raw list), log, gather inputs, run the node logic, store the outputs under
`nodeId:portId`, mark executed, log again. -/
def executeNode (g : WorkflowGraph) (context : ExecutionContext) (nodeId : String)
    (st : ExecState) : Except (String × ExecState) ExecState :=
  match g.nodes.find? (fun n => n.id == nodeId) with
  | none => .error ("Node not found: " ++ nodeId, st)
  | some node =>
      let st1 := logMsg st ("Executing node: " ++ node.label ++ " (" ++ node.type ++ ")")
      match gatherInputs g node st1 with
      | .error msg => .error (msg, st1)
      | .ok inputs =>
          match executeNodeLogic node inputs context st1 with
          | .error e => .error e
          | .ok (outputs, st2) =>
              let st3 :=
                { st2 with
                  nodeOutputs :=
                    outputs.foldl (fun m kv => insertEntry m (mkKey nodeId kv.1) kv.2)
                      st2.nodeOutputs,
                  executedNodes := addExecuted st2.executedNodes nodeId }
              .ok (logMsg st3 ("Node executed: " ++ node.label))

/-- The `for (const nodeId of topSort.order)` loop of `execute`. -/
def runNodes (g : WorkflowGraph) (context : ExecutionContext) :
    List String → ExecState → Except (String × ExecState) ExecState
  | [], st => .ok st
  | nodeId :: rest, st =>
      match executeNode g context nodeId st with
      | .error e => .error e
      | .ok st' => runNodes g context rest st'

/-- `collectOutputs()`: for each terminal node (no outgoing raw edge), an
object of its stored output values, keyed by node id. -/
def collectOutputs (g : WorkflowGraph) (st : ExecState) : Value :=
  .obj ((g.nodes.filter (fun n => !(g.edges.any (fun e => e.source == n.id)))).foldl
    (fun acc node =>
      insertEntry acc node.id
        (.obj (node.outputs.foldl
          (fun m output =>
            insertEntry m output.id (getD st.nodeOutputs (mkKey node.id output.id) .undef))
          [])))
    [])

/-- The fresh per-run state built by the `WorkflowExecutor` constructor. -/
def initialState : ExecState := ⟨[], [], []⟩

/-- `execute(context)`: validate (fail fast when invalid), infer types (a
throw is caught), get the order, run every node, collect terminal outputs;
any thrown error becomes a failure result carrying the logs so far.  The
second component is the executor's state after the call. -/
def execute (g : WorkflowGraph) (context : ExecutionContext) :
    ExecutionResult × ExecState :=
  let st := initialState
  let validation := validate g
  if !validation.valid then
    (.failure ("Graph validation failed: " ++ toString validation.errors.length ++ " errors")
      st.logs, st)
  else
    match inferTypesRun g with
    | (some msg, _) => (.failure msg st.logs, st)
    | (none, _) =>
        let st := logMsg st "Type inference complete"
        match topologicalSort g with
        | .failure _ _ => (.failure "Cannot execute: graph contains cycles" st.logs, st)
        | .success order =>
            match runNodes g context order st with
            | .error (msg, st') => (.failure msg st'.logs, st')
            | .ok st' => (.success (collectOutputs g st') st'.logs, st')

/-! ## Concrete fixtures used by the claim theorems -/

/-- A node whose category is recognised but whose type is not. -/
def unknownTriggerNode : WorkflowNode :=
  ⟨"n1", "trigger.webhook", "trigger", "n1", [], [], []⟩

/-- A three-node directed cycle A→B→C→A (Scenario D). -/
def gTriangle : WorkflowGraph :=
  ⟨"g", "g",
   [⟨"A", "data.constant", "data", "A", [], [⟨"o", "o", .any, false⟩], []⟩,
    ⟨"B", "data.constant", "data", "B", [], [⟨"o", "o", .any, false⟩], []⟩,
    ⟨"C", "data.constant", "data", "C", [], [⟨"o", "o", .any, false⟩], []⟩],
   [⟨"e1", "A", "o", "B", "i"⟩, ⟨"e2", "B", "o", "C", "i"⟩, ⟨"e3", "C", "o", "A", "i"⟩]⟩

/-- An acyclic graph with an edge whose source node id `X` does not exist:
the phantom source inflates `B`'s in-degree, so the Kahn loop never
processes `B` although the graph has no directed cycle. -/
def gPhantomSource : WorkflowGraph :=
  ⟨"g", "g",
   [⟨"A", "data.constant", "data", "A", [], [], []⟩,
    ⟨"B", "data.constant", "data", "B", [], [], []⟩],
   [⟨"e", "X", "p", "B", "i"⟩]⟩

/-- Scenario B graph: a single node with a required input and no incoming
edge. -/
def scenarioB : WorkflowGraph :=
  ⟨"wf", "wf",
   [⟨"node1", "logic.if", "logic", "node1", [⟨"in1", "in1", .boolean, true⟩], [], []⟩], []⟩

/-- Two raw nodes sharing the id `n`, and no edges. -/
def gDup : WorkflowGraph :=
  ⟨"g", "g",
   [⟨"n", "data.constant", "data", "n", [], [], []⟩,
    ⟨"n", "data.constant", "data", "n2", [], [], []⟩], []⟩

/-- Two raw nodes sharing the id `n`, each declaring a different output
port, and no edges. -/
def gDup2 : WorkflowGraph :=
  ⟨"g", "g",
   [⟨"n", "data.constant", "data", "n", [], [⟨"p1", "p1", .number, false⟩], []⟩,
    ⟨"n", "data.constant", "data", "n2", [], [⟨"p2", "p2", .string, false⟩], []⟩], []⟩

/-- Two source nodes with differently typed outputs both feeding the same
input port `D:i`; the edge from `B` comes first in the edge list, the edge
from `A` second. -/
def gC6 : WorkflowGraph :=
  ⟨"g", "g",
   [⟨"A", "data.constant", "data", "A", [], [⟨"o", "o", .number, false⟩], []⟩,
    ⟨"B", "data.constant", "data", "B", [], [⟨"o", "o", .string, false⟩], []⟩,
    ⟨"D", "effect.log", "effect", "D", [⟨"i", "i", .any, true⟩], [], []⟩],
   [⟨"e1", "B", "o", "D", "i"⟩, ⟨"e2", "A", "o", "D", "i"⟩]⟩

/-- An acyclic two-node chain A→B, each node declaring one output port. -/
def gChain : WorkflowGraph :=
  ⟨"g", "g",
   [⟨"A", "data.constant", "data", "A", [], [⟨"o", "o", .number, false⟩], []⟩,
    ⟨"B", "transform.map", "transform", "B",
      [⟨"i", "i", .any, true⟩], [⟨"o", "o", .any, false⟩], []⟩],
   [⟨"e1", "A", "o", "B", "i"⟩]⟩

/-! ## Proof-side definitions

Specification-side relations and invariants the correctness proofs are
stated over. -/

/-- The id-deduplicated graph: only the last node/edge for each id
survives (in first-occurrence order), exactly the view the validator's
constructor maps give. -/
def dedupGraph (g : WorkflowGraph) : WorkflowGraph :=
  ⟨g.id, g.name, nodeValues g, edgeValues g⟩

/-- The adjacency step relation read off the validator's adjacency list. -/
def stepAdj (g : WorkflowGraph) (a b : String) : Prop :=
  b ∈ getD (buildAdjacencyList g) a []

/-- The directed-edge step relation of the raw graph. -/
def stepRel (g : WorkflowGraph) (a b : String) : Prop :=
  ∃ e ∈ g.edges, e.source = a ∧ e.target = b

/-- A graph contains a directed cycle iff some node reaches itself through
a nonempty chain of edges. -/
def hasDirectedCycle (g : WorkflowGraph) : Prop :=
  ∃ v, Relation.TransGen (stepRel g) v v

/-- The cleanliness facts the Kahn/DFS correctness lemmas run on: every
adjacency entry's key and every neighbor occurrence is a node key. -/
def CleanAdj (g : WorkflowGraph) : Prop :=
  ∀ p ∈ buildAdjacencyList g, p.1 ∈ nodeKeys g ∧ ∀ x ∈ p.2, x ∈ nodeKeys g

/-- Total number of occurrences of `v` as a neighbor across the adjacency
lists (the in-degree `topologicalSort` starts from). -/
def inboundCount (g : WorkflowGraph) (v : String) : Nat :=
  (((buildAdjacencyList g).map (fun p => p.2)).flatten).count v

/-- Occurrences of `v` as a neighbor of already-processed nodes `R`
(the decrements applied so far). -/
def doneSum (g : WorkflowGraph) (R : List String) (v : String) : Nat :=
  ((buildAdjacencyList g).map (fun p => if p.1 ∈ R then p.2.count v else 0)).sum

/-- The invariant of the Kahn loop state between iterations. -/
structure KahnInv (g : WorkflowGraph) (queue result : List String)
    (inDeg : List (String × Int)) : Prop where
  nodup : (result ++ queue).Nodup
  subKeys : ∀ v ∈ result ++ queue, v ∈ nodeKeys g
  deg : ∀ v, getD inDeg v 0 = (inboundCount g v : Int) - (doneSum g result v : Int)
  seen : ∀ v ∈ nodeKeys g,
    ((v ∈ queue ∨ v ∈ result) ↔ inboundCount g v = doneSum g result v)
  order : ∀ v ∈ result, ∀ u, v ∈ getD (buildAdjacencyList g) u [] →
    u ∈ result ∧ List.indexOf u result < List.indexOf v result

/-- What survives of the invariant when the queue has drained. -/
structure KahnFinal (g : WorkflowGraph) (R : List String) : Prop where
  nodup : R.Nodup
  subKeys : ∀ v ∈ R, v ∈ nodeKeys g
  order : ∀ v ∈ R, ∀ u, v ∈ getD (buildAdjacencyList g) u [] →
    u ∈ R ∧ List.indexOf u R < List.indexOf v R
  seen : ∀ v ∈ nodeKeys g, (v ∈ R ↔ inboundCount g v = doneSum g R v)

/-- The neighbor-loop body of `dfsVisit`, named for the proofs:
`dfsVisit adj (fuel+1) u path visited` is exactly a fold of this step over
the neighbors of `u` (see `dfsVisit_eq_foldl`). -/
def dfsStep (adj : List (String × List String)) (fuel : Nat) (path : List String)
    (acc : Option (List String) × List String) (n : String) :
    Option (List String) × List String :=
  match acc with
  | (some c, vis) => (some c, vis)
  | (none, vis) =>
      if n ∈ vis then
        if n ∈ path then (some (path.dropWhile (fun x => x ≠ n)), vis)
        else (none, vis)
      else dfsVisit adj fuel n path vis

/-- Finish-order invariant: each finished vertex's neighbors appear
strictly earlier in the finish list. -/
def PrefixClosed (g : WorkflowGraph) (fin : List String) : Prop :=
  ∀ (i : Nat) (hi : i < fin.length),
    ∀ w ∈ getD (buildAdjacencyList g) (fin.get ⟨i, hi⟩) [], w ∈ fin.take i

/-- The DFS state invariant: `visited` is exactly the finished vertices
plus the current path, the path and finished list are disjoint, and the
finished list is prefix-closed. -/
structure DfsInv (g : WorkflowGraph) (visited path fin : List String) : Prop where
  mem_iff : ∀ v, v ∈ visited ↔ (v ∈ fin ∨ v ∈ path)
  nodupFin : fin.Nodup
  disj : ∀ v ∈ path, v ∉ fin
  closed : PrefixClosed g fin

/-- Soundness of a `false` (`none`) answer of one `dfs` call: everything
it visits lands in an extended, still prefix-closed finish list containing
the visited root. -/
def DfsVisitSound (g : WorkflowGraph) (fuel : Nat) : Prop :=
  ∀ (u : String) (path visited fin vis' : List String),
    DfsInv g visited path fin →
    u ∉ visited →
    dfsVisit (buildAdjacencyList g) fuel u path visited = (none, vis') →
    ∃ ext, DfsInv g vis' path (fin ++ ext) ∧ u ∈ fin ++ ext

/-- Soundness of a `false` (`none`) answer of the neighbor loop. -/
def DfsFoldSound (g : WorkflowGraph) (fuel : Nat) : Prop :=
  ∀ (ns : List String) (path visited fin vis' : List String),
    DfsInv g visited path fin →
    ns.foldl (dfsStep (buildAdjacencyList g) fuel path) (none, visited) = (none, vis') →
    ∃ ext, DfsInv g vis' path (fin ++ ext) ∧ ∀ n ∈ ns, n ∈ fin ++ ext

/-! ## Helper lemmas -/

theorem degSum_insertEntry (m : List (String × Int)) (k : String) (v : Int) :
    degSum (insertEntry m k v) + (getD m k 0).toNat = degSum m + v.toNat := by
  induction m with
  | nil => simp [insertEntry, degSum, getD, lookupM]
  | cons p rest ih =>
      rcases p with ⟨a, b⟩
      by_cases hk : (a == k) = true
      · have h1 : insertEntry ((a, b) :: rest) k v = (k, v) :: rest := by
          simp [insertEntry, hk]
        have h2 : getD ((a, b) :: rest) k 0 = b := by
          simp [getD, lookupM, List.find?, hk]
        rw [h1, h2]
        simp only [degSum, List.map_cons, List.sum_cons]
        omega
      · have h1 : insertEntry ((a, b) :: rest) k v = (a, b) :: insertEntry rest k v := by
          simp [insertEntry, hk]
        have h2 : getD ((a, b) :: rest) k 0 = getD rest k 0 := by
          simp [getD, lookupM, List.find?, hk]
        rw [h1, h2]
        simp only [degSum, List.map_cons, List.sum_cons]
        have := ih
        simp only [degSum] at this
        omega

theorem kahnDecr_measure (ns : List String) (inDeg : List (String × Int)) :
    degSum (kahnDecr inDeg ns).1 + (kahnDecr inDeg ns).2.length ≤ degSum inDeg := by
  suffices h : ∀ (m : List (String × Int)) (zs : List String),
      degSum (ns.foldl
        (fun acc n =>
          let d := getD acc.1 n 0 - 1
          (insertEntry acc.1 n d, if d = 0 then acc.2 ++ [n] else acc.2)) (m, zs)).1 +
      (ns.foldl
        (fun acc n =>
          let d := getD acc.1 n 0 - 1
          (insertEntry acc.1 n d, if d = 0 then acc.2 ++ [n] else acc.2)) (m, zs)).2.length ≤
      degSum m + zs.length by
    simpa [kahnDecr] using h inDeg []
  induction ns with
  | nil => intro m zs; simp
  | cons n rest ih =>
      intro m zs
      simp only [List.foldl_cons]
      refine le_trans (ih _ _) ?_
      dsimp only
      have heq := degSum_insertEntry m n (getD m n 0 - 1)
      by_cases hz : getD m n 0 - 1 = 0
      · rw [if_pos hz]
        simp only [List.length_append, List.length_cons, List.length_nil]
        omega
      · rw [if_neg hz]
        omega

section AssocMapLemmas

variable {α : Type}

theorem lookupM_cons (p : String × α) (m : List (String × α)) (k : String) :
    lookupM (p :: m) k = if p.1 == k then some p.2 else lookupM m k := by
  by_cases h : (p.1 == k) = true <;> simp [lookupM, List.find?, h]

theorem lookupM_eq_none_iff (m : List (String × α)) (k : String) :
    lookupM m k = none ↔ ∀ p ∈ m, p.1 ≠ k := by
  induction m with
  | nil => simp [lookupM]
  | cons p rest ih =>
      rw [lookupM_cons]
      by_cases h : (p.1 == k) = true
      · simp only [h, if_pos]
        constructor
        · intro hc; cases hc
        · intro hall; exact absurd (by simpa using h) (hall p (by simp))
      · simp only [h, Bool.false_eq_true, if_false, ih, List.mem_cons]
        constructor
        · intro hall q hq
          rcases hq with rfl | hq
          · simpa using h
          · exact hall q hq
        · intro hall q hq; exact hall q (Or.inr hq)

theorem lookupM_append (m₁ m₂ : List (String × α)) (k : String) :
    lookupM (m₁ ++ m₂) k =
      match lookupM m₁ k with
      | some v => some v
      | none => lookupM m₂ k := by
  induction m₁ with
  | nil => simp [lookupM]
  | cons p rest ih =>
      rw [List.cons_append, lookupM_cons, lookupM_cons]
      by_cases h : (p.1 == k) = true <;> simp [h, ih]

theorem mem_insertEntry (m : List (String × α)) (k : String) (v : α)
    (p : String × α) (hp : p ∈ insertEntry m k v) : p ∈ m ∨ p = (k, v) := by
  induction m with
  | nil => simpa [insertEntry] using hp
  | cons q rest ih =>
      by_cases h : (q.1 == k) = true
      · simp only [insertEntry, h, if_pos, List.mem_cons] at hp
        rcases hp with rfl | hp
        · exact Or.inr rfl
        · exact Or.inl (List.mem_cons_of_mem _ hp)
      · simp only [insertEntry, h, Bool.false_eq_true, if_false, List.mem_cons] at hp
        rcases hp with rfl | hp
        · exact Or.inl (List.mem_cons_self _ _)
        · rcases ih hp with h' | h'
          · exact Or.inl (List.mem_cons_of_mem _ h')
          · exact Or.inr h'

theorem mem_keys_insertEntry (m : List (String × α)) (k : String) (v : α)
    (a : String) (ha : a ∈ (insertEntry m k v).map (fun p => p.1)) :
    a ∈ m.map (fun p => p.1) ∨ a = k := by
  rcases List.mem_map.mp ha with ⟨p, hp, rfl⟩
  rcases mem_insertEntry m k v p hp with h | h
  · exact Or.inl (List.mem_map_of_mem _ h)
  · exact Or.inr (by rw [h])

theorem nodup_keys_insertEntry (m : List (String × α)) (k : String) (v : α)
    (h : (m.map (fun p => p.1)).Nodup) :
    ((insertEntry m k v).map (fun p => p.1)).Nodup := by
  induction m with
  | nil => simp [insertEntry]
  | cons q rest ih =>
      by_cases hq : (q.1 == k) = true
      · have hk : q.1 = k := by simpa using hq
        simp only [insertEntry, hq, if_pos, List.map_cons, List.nodup_cons] at h ⊢
        exact ⟨by rw [← hk]; exact h.1, h.2⟩
      · simp only [insertEntry, hq, Bool.false_eq_true, if_false, List.map_cons,
          List.nodup_cons] at h ⊢
        refine ⟨fun hc => ?_, ih h.2⟩
        rcases mem_keys_insertEntry rest k v q.1 hc with h' | h'
        · exact h.1 h'
        · exact absurd h' (by simpa using hq)

theorem nodup_keys_buildMap (l : List (String × α)) :
    ((buildMap l).map (fun p => p.1)).Nodup := by
  suffices h : ∀ (m : List (String × α)), (m.map (fun p => p.1)).Nodup →
      ((l.foldl (fun m p => insertEntry m p.1 p.2) m).map (fun p => p.1)).Nodup by
    exact h [] (by simp)
  induction l with
  | nil => intro m hm; simpa using hm
  | cons p rest ih =>
      intro m hm
      exact ih _ (nodup_keys_insertEntry m p.1 p.2 hm)

theorem mem_buildMap_prop (l : List (String × α)) (P : String × α → Prop)
    (hP : ∀ p ∈ l, P p) : ∀ p ∈ buildMap l, P p := by
  suffices h : ∀ (m : List (String × α)), (∀ p ∈ m, P p) →
      ∀ p ∈ l.foldl (fun m p => insertEntry m p.1 p.2) m, P p by
    exact h [] (by simp)
  induction l with
  | nil => intro m hm; simpa using hm
  | cons q rest ih =>
      intro m hm
      refine ih (fun p hp => hP p (List.mem_cons_of_mem _ hp)) _ (fun p hp => ?_)
      rcases mem_insertEntry m q.1 q.2 p hp with h' | h'
      · exact hm p h'
      · rw [h']
        exact hP q (List.mem_cons_self _ _)

theorem insertEntry_of_lookup_none (m : List (String × α)) (k : String) (v : α)
    (h : lookupM m k = none) : insertEntry m k v = m ++ [(k, v)] := by
  induction m with
  | nil => simp [insertEntry]
  | cons p rest ih =>
      rw [lookupM_cons] at h
      by_cases hq : (p.1 == k) = true
      · simp [hq] at h
      · simp only [hq, Bool.false_eq_true, if_false] at h
        simp [insertEntry, hq, ih h]

theorem buildMap_self (l : List (String × α)) (h : (l.map (fun p => p.1)).Nodup) :
    buildMap l = l := by
  suffices hgen : ∀ (m : List (String × α)),
      (∀ a ∈ l.map (fun p => p.1), lookupM m a = none) →
      (l.map (fun p => p.1)).Nodup →
      l.foldl (fun m p => insertEntry m p.1 p.2) m = m ++ l by
    simpa using hgen [] (fun a _ => rfl) h
  clear h
  induction l with
  | nil => intro m _ _; simp
  | cons q rest ih =>
      intro m hnone hnodup
      simp only [List.map_cons, List.nodup_cons] at hnodup
      simp only [List.foldl_cons]
      rw [insertEntry_of_lookup_none m q.1 q.2 (hnone q.1 (by simp))]
      rw [ih _ (fun a ha => ?_) hnodup.2]
      · simp
      · rw [lookupM_append]
        rw [hnone a (by simp [ha])]
        have hne : q.1 ≠ a := fun hc => hnodup.1 (hc ▸ ha)
        rw [lookupM_cons]
        simp [lookupM, hne]

theorem lookupM_insertEntry_self (m : List (String × α)) (k : String) (v : α) :
    lookupM (insertEntry m k v) k = some v := by
  induction m with
  | nil => simp [insertEntry, lookupM]
  | cons p rest ih =>
      by_cases h : (p.1 == k) = true
      · simp [insertEntry, h, lookupM_cons]
      · simp only [insertEntry, h, Bool.false_eq_true, if_false]
        rw [lookupM_cons]
        simp [h, ih]

theorem lookupM_insertEntry_ne (m : List (String × α)) (k : String) (v : α)
    (k' : String) (h : k' ≠ k) :
    lookupM (insertEntry m k v) k' = lookupM m k' := by
  have hne : ¬ k = k' := fun hc => h hc.symm
  induction m with
  | nil =>
      simp only [insertEntry]
      rw [lookupM_cons]
      simp [lookupM, hne]
  | cons p rest ih =>
      by_cases hp : (p.1 == k) = true
      · have hpk : p.1 = k := by simpa using hp
        simp only [insertEntry, hp, if_pos]
        rw [lookupM_cons, lookupM_cons]
        have h1 : (k == k') = false := by simp [hne]
        have h2 : (p.1 == k') = false := by simp [hpk, hne]
        simp [h1, h2]
      · simp only [insertEntry, hp, Bool.false_eq_true, if_false]
        rw [lookupM_cons, lookupM_cons]
        by_cases hq : (p.1 == k') = true <;> simp [hq, ih]

theorem getD_insertEntry_self (m : List (String × α)) (k : String) (v d : α) :
    getD (insertEntry m k v) k d = v := by
  simp [getD, lookupM_insertEntry_self]

theorem getD_insertEntry_ne (m : List (String × α)) (k : String) (v : α)
    (k' : String) (d : α) (h : k' ≠ k) :
    getD (insertEntry m k v) k' d = getD m k' d := by
  simp [getD, lookupM_insertEntry_ne m k v k' h]

theorem lookupM_isSome_iff (m : List (String × α)) (k : String) :
    (lookupM m k).isSome ↔ k ∈ m.map (fun p => p.1) := by
  induction m with
  | nil => simp [lookupM]
  | cons p rest ih =>
      rw [lookupM_cons]
      by_cases h : (p.1 == k) = true
      · have : p.1 = k := by simpa using h
        simp [h, this]
      · have h1 : ¬ p.1 = k := by simpa using h
        have h2 : ¬ k = p.1 := fun hc => h1 hc.symm
        simp [h, ih, h1, h2]

theorem lookupM_mem (m : List (String × α)) (k : String) (v : α)
    (h : lookupM m k = some v) : (k, v) ∈ m := by
  induction m with
  | nil => simp [lookupM] at h
  | cons p rest ih =>
      rw [lookupM_cons] at h
      by_cases hp : (p.1 == k) = true
      · simp only [hp, if_pos, Option.some.injEq] at h
        have h1 : p.1 = k := by simpa using hp
        have : p = (k, v) := by
          cases p
          simp only at h1 h
          simp [h1, h]
        exact this ▸ List.mem_cons_self _ _
      · simp only [hp, Bool.false_eq_true, if_false] at h
        exact List.mem_cons_of_mem _ (ih h)

theorem lookupM_of_mem_nodup (m : List (String × α))
    (hn : (m.map (fun p => p.1)).Nodup) (k : String) (v : α) (hm : (k, v) ∈ m) :
    lookupM m k = some v := by
  induction m with
  | nil => cases hm
  | cons p rest ih =>
      simp only [List.map_cons, List.nodup_cons] at hn
      rcases List.mem_cons.mp hm with rfl | hm'
      · rw [lookupM_cons]; simp
      · have hk : k ∈ rest.map (fun p => p.1) := by
          simpa using List.mem_map_of_mem (fun p => p.1) hm'
        have hne : p.1 ≠ k := fun hc => hn.1 (hc ▸ hk)
        rw [lookupM_cons]
        simp only [hne, beq_iff_eq, if_neg, if_false]
        exact ih hn.2 hm'

theorem mem_keys_insertEntry_iff (m : List (String × α)) (k : String) (v : α)
    (a : String) :
    a ∈ (insertEntry m k v).map (fun p => p.1) ↔ a ∈ m.map (fun p => p.1) ∨ a = k := by
  constructor
  · exact mem_keys_insertEntry m k v a
  · intro h
    induction m with
    | nil =>
        rcases h with h | rfl
        · simp at h
        · simp [insertEntry]
    | cons p rest ih =>
        by_cases hp : (p.1 == k) = true
        · have hpk : p.1 = k := by simpa using hp
          simp only [insertEntry, hp, if_pos, List.map_cons, List.mem_cons]
          rcases h with h | rfl
          · simp only [List.map_cons, List.mem_cons] at h
            rcases h with rfl | h
            · exact Or.inl hpk
            · exact Or.inr h
          · exact Or.inl rfl
        · simp only [insertEntry, hp, Bool.false_eq_true, if_false, List.map_cons,
            List.mem_cons]
          rcases h with h | rfl
          · simp only [List.map_cons, List.mem_cons] at h
            rcases h with rfl | h
            · exact Or.inl rfl
            · exact Or.inr (ih (Or.inl h))
          · exact Or.inr (ih (Or.inr rfl))

theorem mem_keys_buildMap (l : List (String × α)) (a : String) :
    a ∈ (buildMap l).map (fun p => p.1) ↔ a ∈ l.map (fun p => p.1) := by
  suffices h : ∀ m : List (String × α),
      a ∈ (l.foldl (fun m p => insertEntry m p.1 p.2) m).map (fun p => p.1) ↔
      a ∈ m.map (fun p => p.1) ∨ a ∈ l.map (fun p => p.1) by
    simpa using h []
  induction l with
  | nil => intro m; simp
  | cons p rest ih =>
      intro m
      rw [List.foldl_cons, ih, mem_keys_insertEntry_iff]
      simp only [List.map_cons, List.mem_cons]
      tauto

theorem nodup_keys_foldl_insertEntry {β : Type} (l : List β) (key : β → String)
    (val : List (String × α) → β → α) (m : List (String × α))
    (hm : (m.map (fun p => p.1)).Nodup) :
    ((l.foldl (fun m b => insertEntry m (key b) (val m b)) m).map (fun p => p.1)).Nodup := by
  induction l generalizing m with
  | nil => simpa using hm
  | cons b rest ih => exact ih _ (nodup_keys_insertEntry m (key b) (val m b) hm)

theorem mem_keys_foldl_insertEntry {β : Type} (l : List β) (key : β → String)
    (val : List (String × α) → β → α) (m : List (String × α)) (a : String) :
    a ∈ ((l.foldl (fun m b => insertEntry m (key b) (val m b)) m).map (fun p => p.1)) ↔
      a ∈ m.map (fun p => p.1) ∨ a ∈ l.map key := by
  induction l generalizing m with
  | nil => simp
  | cons b rest ih =>
      rw [List.foldl_cons, ih, mem_keys_insertEntry_iff]
      simp only [List.map_cons, List.mem_cons]
      tauto

end AssocMapLemmas

theorem nodesMap_entry_id (g : WorkflowGraph) :
    ∀ p ∈ nodesMap g, p.1 = p.2.id := by
  refine mem_buildMap_prop _ _ (fun p hp => ?_)
  rcases List.mem_map.mp hp with ⟨n, _, rfl⟩
  rfl

theorem edgesMap_entry_id (g : WorkflowGraph) :
    ∀ p ∈ edgesMap g, p.1 = p.2.id := by
  refine mem_buildMap_prop _ _ (fun p hp => ?_)
  rcases List.mem_map.mp hp with ⟨e, _, rfl⟩
  rfl

theorem nodesMap_dedupGraph (g : WorkflowGraph) :
    nodesMap (dedupGraph g) = nodesMap g := by
  have h1 : (nodeValues g).map (fun n => (n.id, n)) = nodesMap g := by
    rw [nodeValues, List.map_map]
    calc (nodesMap g).map ((fun n => (n.id, n)) ∘ fun p => p.2)
        = (nodesMap g).map id := by
          refine List.map_congr_left (fun p hp => ?_)
          have := nodesMap_entry_id g p hp
          simp only [Function.comp_apply, id_eq]
          rw [← this]
      _ = nodesMap g := List.map_id _
  show buildMap ((nodeValues g).map (fun n => (n.id, n))) = nodesMap g
  rw [h1]
  exact buildMap_self _ (nodup_keys_buildMap _)

theorem edgesMap_dedupGraph (g : WorkflowGraph) :
    edgesMap (dedupGraph g) = edgesMap g := by
  have h1 : (edgeValues g).map (fun e => (e.id, e)) = edgesMap g := by
    rw [edgeValues, List.map_map]
    calc (edgesMap g).map ((fun e => (e.id, e)) ∘ fun p => p.2)
        = (edgesMap g).map id := by
          refine List.map_congr_left (fun p hp => ?_)
          have := edgesMap_entry_id g p hp
          simp only [Function.comp_apply, id_eq]
          rw [← this]
      _ = edgesMap g := List.map_id _
  show buildMap ((edgeValues g).map (fun e => (e.id, e))) = edgesMap g
  rw [h1]
  exact buildMap_self _ (nodup_keys_buildMap _)

/-! ### Structure of the adjacency list and the in-degree map -/

theorem mem_nodeKeys_iff (g : WorkflowGraph) (a : String) :
    a ∈ nodeKeys g ↔ a ∈ g.nodes.map (fun n => n.id) := by
  rw [nodeKeys, nodesMap, mem_keys_buildMap, List.map_map]
  rfl

theorem mem_edgeValues (g : WorkflowGraph) (e : Edge) (h : e ∈ edgeValues g) :
    e ∈ g.edges := by
  rcases List.mem_map.mp h with ⟨p, hp, rfl⟩
  have hp' : p ∈ buildMap (g.edges.map (fun e => (e.id, e))) := hp
  have := mem_buildMap_prop (g.edges.map (fun e => (e.id, e))) (fun p => p.2 ∈ g.edges)
    (fun q hq => by rcases List.mem_map.mp hq with ⟨e', he', rfl⟩; exact he') p hp'
  exact this

theorem getD_seed_nil (keys : List String) (u : String) :
    getD (keys.foldl (fun m k => insertEntry m k ([] : List String)) []) u [] = [] := by
  have hseed : keys.foldl (fun m k => insertEntry m k ([] : List String)) [] =
      buildMap (keys.map (fun k => (k, ([] : List String)))) := by
    rw [buildMap, List.foldl_map]
  rw [hseed]
  have hval : ∀ p ∈ buildMap (keys.map (fun k => (k, ([] : List String)))),
      p.2 = ([] : List String) :=
    mem_buildMap_prop _ _ (fun p hp => by
      rcases List.mem_map.mp hp with ⟨k, _, rfl⟩; rfl)
  rcases ho : lookupM (buildMap (keys.map (fun k => (k, ([] : List String))))) u with _ | l
  · simp [getD, ho]
  · have := hval (u, l) (lookupM_mem _ _ _ ho)
    simp only [getD, ho, Option.getD_some]
    exact this

theorem adj_getD (g : WorkflowGraph) (u : String) :
    getD (buildAdjacencyList g) u [] =
      ((edgeValues g).filter (fun e => e.source == u)).map (fun e => e.target) := by
  rw [buildAdjacencyList]
  have hfold : ∀ (edges : List Edge) (m : List (String × List String)),
      getD (edges.foldl
          (fun m e => insertEntry m e.source (getD m e.source [] ++ [e.target])) m) u []
        = getD m u [] ++ (edges.filter (fun e => e.source == u)).map (fun e => e.target) := by
    intro edges
    induction edges with
    | nil => intro m; simp
    | cons e rest ih =>
        intro m
        simp only [List.foldl_cons, List.filter_cons]
        rw [ih]
        by_cases h : (e.source == u) = true
        · have hu : e.source = u := by simpa using h
          subst hu
          rw [getD_insertEntry_self]
          simp [h]
        · have hne : u ≠ e.source := fun hc => by simp [hc] at h
          rw [getD_insertEntry_ne _ _ _ _ _ hne]
          simp [h]
  rw [hfold, getD_seed_nil]
  simp

theorem adjKeys_nodup (g : WorkflowGraph) :
    ((buildAdjacencyList g).map (fun p => p.1)).Nodup := by
  rw [buildAdjacencyList]
  have hseed : (nodeKeys g).foldl (fun m k => insertEntry m k ([] : List String)) [] =
      buildMap ((nodeKeys g).map (fun k => (k, ([] : List String)))) := by
    rw [buildMap, List.foldl_map]
  have h1 : (((nodeKeys g).foldl (fun m k => insertEntry m k ([] : List String)) []).map
      (fun p => p.1)).Nodup := by
    rw [hseed]; exact nodup_keys_buildMap _
  exact nodup_keys_foldl_insertEntry (edgeValues g) (fun e => e.source)
    (fun m e => getD m e.source [] ++ [e.target]) _ h1

theorem mem_adjKeys_iff (g : WorkflowGraph) (a : String) :
    a ∈ (buildAdjacencyList g).map (fun p => p.1) ↔
      a ∈ nodeKeys g ∨ a ∈ (edgeValues g).map (fun e => e.source) := by
  rw [buildAdjacencyList]
  have hseed : (nodeKeys g).foldl (fun m k => insertEntry m k ([] : List String)) [] =
      buildMap ((nodeKeys g).map (fun k => (k, ([] : List String)))) := by
    rw [buildMap, List.foldl_map]
  rw [mem_keys_foldl_insertEntry (edgeValues g) (fun e => e.source)
    (fun m e => getD m e.source [] ++ [e.target]), hseed, mem_keys_buildMap, List.map_map]
  have h2 : ((fun p => p.1) ∘ fun k => (k, ([] : List String))) = fun k : String => k := rfl
  rw [h2]
  simp

theorem adj_entry_value (g : WorkflowGraph) (p : String × List String)
    (hp : p ∈ buildAdjacencyList g) :
    p.2 = ((edgeValues g).filter (fun e => e.source == p.1)).map (fun e => e.target) := by
  have := lookupM_of_mem_nodup _ (adjKeys_nodup g) p.1 p.2 (by simpa using hp)
  have hg : getD (buildAdjacencyList g) p.1 [] = p.2 := by simp [getD, this]
  rw [← hg, adj_getD]

theorem stepAdj_iff_clean (g : WorkflowGraph)
    (hE : (g.edges.map (fun e => e.id)).Nodup) (a b : String) :
    stepAdj g a b ↔ stepRel g a b := by
  have hev : edgeValues g = g.edges := by
    have h1 : (g.edges.map (fun e => (e.id, e))).map (fun p => p.1) =
        g.edges.map (fun e => e.id) := by rw [List.map_map]; rfl
    rw [edgeValues, edgesMap, buildMap_self _ (by rw [h1]; exact hE), List.map_map]
    have h2 : ((fun p => p.2) ∘ fun e : Edge => (e.id, e)) = fun e : Edge => e := rfl
    rw [h2]
    simp
  rw [stepAdj, adj_getD, hev, stepRel]
  constructor
  · intro h
    rcases List.mem_map.mp h with ⟨e, he, rfl⟩
    rcases List.mem_filter.mp he with ⟨he1, he2⟩
    exact ⟨e, he1, by simpa using he2, rfl⟩
  · rintro ⟨e, he, rfl, rfl⟩
    exact List.mem_map_of_mem _ (List.mem_filter.mpr ⟨he, by simp⟩)

theorem cleanAdj_of_ends (g : WorkflowGraph)
    (h : ∀ e ∈ g.edges, e.source ∈ g.nodes.map (fun n => n.id) ∧
                        e.target ∈ g.nodes.map (fun n => n.id)) :
    CleanAdj g := by
  intro p hp
  have hkey : p.1 ∈ (buildAdjacencyList g).map (fun q => q.1) := List.mem_map_of_mem _ hp
  rw [mem_adjKeys_iff] at hkey
  constructor
  · rcases hkey with hk | hk
    · exact hk
    · rcases List.mem_map.mp hk with ⟨e, he, heq⟩
      exact heq ▸ (mem_nodeKeys_iff g _).mpr (h e (mem_edgeValues g e he)).1
  · intro x hx
    rw [adj_entry_value g p hp] at hx
    rcases List.mem_map.mp hx with ⟨e, he, rfl⟩
    exact (mem_nodeKeys_iff g _).mpr
      (h e (mem_edgeValues g e (List.mem_filter.mp he).1)).2

/-! ### Kahn accounting: inbound occurrences and processed decrements -/

theorem inboundCount_eq_sum (g : WorkflowGraph) (v : String) :
    inboundCount g v = ((buildAdjacencyList g).map (fun p => p.2.count v)).sum := by
  rw [inboundCount, List.count_flatten, List.map_map]
  rfl

theorem doneSum_le_inbound (g : WorkflowGraph) (R : List String) (v : String) :
    doneSum g R v ≤ inboundCount g v := by
  rw [inboundCount_eq_sum, doneSum]
  refine List.sum_le_sum (fun p _ => ?_)
  by_cases h : p.1 ∈ R <;> simp [h]

theorem inbound_eq_done_add_rest (g : WorkflowGraph) (R : List String) (v : String) :
    inboundCount g v = doneSum g R v +
      ((buildAdjacencyList g).map (fun p => if p.1 ∈ R then 0 else p.2.count v)).sum := by
  rw [inboundCount_eq_sum, doneSum]
  induction buildAdjacencyList g with
  | nil => simp
  | cons p rest ih =>
      simp only [List.map_cons, List.sum_cons]
      by_cases h : p.1 ∈ R <;> simp [h] <;> omega

theorem done_full_iff (g : WorkflowGraph) (R : List String) (v : String) :
    doneSum g R v = inboundCount g v ↔
      ∀ p ∈ buildAdjacencyList g, p.1 ∉ R → p.2.count v = 0 := by
  rw [inbound_eq_done_add_rest g R v]
  constructor
  · intro h p hp hnR
    have hz : ((buildAdjacencyList g).map
        (fun p => if p.1 ∈ R then 0 else p.2.count v)).sum = 0 := by omega
    have := (List.sum_eq_zero_iff).mp hz (if p.1 ∈ R then 0 else p.2.count v)
      (List.mem_map_of_mem _ hp)
    simpa [hnR] using this
  · intro h
    have hz : ((buildAdjacencyList g).map
        (fun p => if p.1 ∈ R then 0 else p.2.count v)).sum = 0 := by
      refine (List.sum_eq_zero_iff).mpr (fun x hx => ?_)
      rcases List.mem_map.mp hx with ⟨p, hp, rfl⟩
      by_cases hr : p.1 ∈ R
      · simp [hr]
      · simp [hr, h p hp hr]
    omega

theorem sum_ite_key_count (m : List (String × List String))
    (hn : (m.map (fun p => p.1)).Nodup) (q v : String) :
    (m.map (fun p => if p.1 = q then p.2.count v else 0)).sum =
      (getD m q []).count v := by
  induction m with
  | nil => simp [getD, lookupM]
  | cons p rest ih =>
      simp only [List.map_cons, List.nodup_cons] at hn
      simp only [List.map_cons, List.sum_cons]
      by_cases h : p.1 = q
      · have hz : (rest.map (fun p => if p.1 = q then p.2.count v else 0)).sum = 0 := by
          refine (List.sum_eq_zero_iff).mpr (fun x hx => ?_)
          rcases List.mem_map.mp hx with ⟨p', hp', rfl⟩
          have : p'.1 ≠ q := fun hc => hn.1 (h ▸ hc ▸ List.mem_map_of_mem _ hp')
          simp [this]
        have hq : getD (p :: rest) q [] = p.2 := by
          rw [getD, lookupM_cons]
          simp [h]
        rw [hq, hz]
        simp [h]
      · have hq : getD (p :: rest) q [] = getD rest q [] := by
          rw [getD, lookupM_cons]
          simp [h, getD]
        rw [hq, ih hn.2]
        simp [h]

theorem doneSum_append (g : WorkflowGraph) (R : List String) (q : String)
    (hq : q ∉ R) (v : String) :
    doneSum g (R ++ [q]) v =
      doneSum g R v + (getD (buildAdjacencyList g) q []).count v := by
  rw [← sum_ite_key_count (buildAdjacencyList g) (adjKeys_nodup g) q v, doneSum, doneSum]
  induction buildAdjacencyList g with
  | nil => simp
  | cons p rest ih =>
      simp only [List.map_cons, List.sum_cons]
      rw [ih]
      have hsplit : (if p.1 ∈ R ++ [q] then p.2.count v else 0) =
          (if p.1 ∈ R then p.2.count v else 0) + (if p.1 = q then p.2.count v else 0) := by
        by_cases h2 : p.1 = q
        · have hL : p.1 ∈ R ++ [q] := by simp [h2]
          rw [if_pos hL, if_neg (h2 ▸ hq), if_pos h2]
          omega
        · by_cases h1 : p.1 ∈ R
          · have hL : p.1 ∈ R ++ [q] := by simp [h1]
            rw [if_pos hL, if_pos h1, if_neg h2]
            omega
          · have hL : p.1 ∉ R ++ [q] := by simp [h1, h2]
            rw [if_neg hL, if_neg h1, if_neg h2]
      omega

theorem kahnDecr_fold_spec (v : String) (ns : List String) :
    ∀ (m : List (String × Int)) (zs : List String),
      getD (ns.foldl
        (fun acc n =>
          let d := getD acc.1 n 0 - 1
          (insertEntry acc.1 n d, if d = 0 then acc.2 ++ [n] else acc.2)) (m, zs)).1 v 0 =
        getD m v 0 - (ns.count v : Int) ∧
      (ns.foldl
        (fun acc n =>
          let d := getD acc.1 n 0 - 1
          (insertEntry acc.1 n d, if d = 0 then acc.2 ++ [n] else acc.2)) (m, zs)).2.count v =
        zs.count v +
          (if 0 < getD m v 0 ∧ getD m v 0 ≤ (ns.count v : Int) then 1 else 0) := by
  induction ns with
  | nil =>
      intro m zs
      constructor
      · simp
      · simp only [List.foldl_nil, List.count_nil, Nat.cast_zero]
        have : ¬ (0 < getD m v 0 ∧ getD m v 0 ≤ (0 : Int)) := by omega
        simp [this]
  | cons n rest ih =>
      intro m zs
      simp only [List.foldl_cons]
      have hrec := ih (insertEntry m n (getD m n 0 - 1))
        (if getD m n 0 - 1 = 0 then zs ++ [n] else zs)
      by_cases hv : v = n
      · subst hv
        have hself : getD (insertEntry m v (getD m v 0 - 1)) v 0 = getD m v 0 - 1 :=
          getD_insertEntry_self m v _ 0
        have hcount : ((v :: rest).count v : Int) = (rest.count v : Int) + 1 := by
          simp [List.count_cons]
        constructor
        · rw [hrec.1, hself]
          omega
        · rw [hrec.2, hself]
          have hzs : (if getD m v 0 - 1 = 0 then zs ++ [v] else zs).count v =
              zs.count v + (if getD m v 0 = 1 then 1 else 0) := by
            by_cases h1 : getD m v 0 - 1 = 0
            · have h2 : getD m v 0 = 1 := by omega
              simp [h1, h2, List.count_append]
            · have h2 : ¬ getD m v 0 = 1 := by omega
              simp [h1, h2]
          rw [hzs]
          split_ifs <;> omega
      · have hnv : ¬ n = v := fun hc => hv hc.symm
        have hne : getD (insertEntry m n (getD m n 0 - 1)) v 0 = getD m v 0 :=
          getD_insertEntry_ne m n _ v 0 hv
        have hcount : (n :: rest).count v = rest.count v := by
          simp [List.count_cons, hnv]
        constructor
        · rw [hrec.1, hne, hcount]
        · rw [hrec.2, hne, hcount]
          have hzs : (if getD m n 0 - 1 = 0 then zs ++ [n] else zs).count v = zs.count v := by
            by_cases h1 : getD m n 0 - 1 = 0
            · simp [h1, List.count_append, List.count_singleton, hnv]
            · simp [h1]
          rw [hzs]

theorem kahnDecr_spec (v : String) (ns : List String) (m : List (String × Int)) :
    getD (kahnDecr m ns).1 v 0 = getD m v 0 - (ns.count v : Int) ∧
    (kahnDecr m ns).2.count v =
      (if 0 < getD m v 0 ∧ getD m v 0 ≤ (ns.count v : Int) then 1 else 0) := by
  have h0 := kahnDecr_fold_spec v ns m []
  rw [kahnDecr]
  refine ⟨h0.1, ?_⟩
  rw [h0.2]
  simp

theorem kahnDecr_zeros_mem (ns : List String) (m : List (String × Int)) (v : String) :
    v ∈ (kahnDecr m ns).2 ↔
      0 < getD m v 0 ∧ getD m v 0 ≤ (ns.count v : Int) := by
  have h := (kahnDecr_spec v ns m).2
  constructor
  · intro hv
    by_contra hc
    rw [if_neg hc] at h
    exact absurd h (by simpa using (List.count_pos_iff).mpr hv |>.ne')
  · intro hc
    rw [if_pos hc] at h
    exact (List.count_pos_iff).mp (by omega)

theorem kahnDecr_zeros_nodup (ns : List String) (m : List (String × Int)) :
    (kahnDecr m ns).2.Nodup := by
  rw [List.nodup_iff_count_le_one]
  intro v
  have h := (kahnDecr_spec v ns m).2
  by_cases hc : 0 < getD m v 0 ∧ getD m v 0 ≤ (ns.count v : Int) <;>
    simp [hc] at h <;> omega

theorem kahnDecr_zeros_subset (ns : List String) (m : List (String × Int)) (v : String)
    (h : v ∈ (kahnDecr m ns).2) : v ∈ ns := by
  rw [kahnDecr_zeros_mem] at h
  refine (List.count_pos_iff).mp ?_
  omega

/-! ### The Kahn loop invariant -/

theorem mem_nbrs_keys (g : WorkflowGraph) (hclean : CleanAdj g) (u x : String)
    (hx : x ∈ getD (buildAdjacencyList g) u []) : x ∈ nodeKeys g := by
  rcases ho : lookupM (buildAdjacencyList g) u with _ | l
  · rw [getD, ho] at hx
    cases hx
  · rw [getD, ho] at hx
    exact (hclean (u, l) (lookupM_mem _ _ _ ho)).2 x hx

theorem doneSum_nil (g : WorkflowGraph) (v : String) : doneSum g [] v = 0 := by
  rw [doneSum]
  refine (List.sum_eq_zero_iff).mpr (fun x hx => ?_)
  rcases List.mem_map.mp hx with ⟨p, _, rfl⟩
  simp

theorem indexOf_append_cons_self (l : List String) (a : String) (h : a ∉ l) :
    List.indexOf a (l ++ [a]) = l.length := by
  induction l with
  | nil => simp [List.indexOf_cons]
  | cons x rest ih =>
      have hxa : ¬ x = a := fun hc => h (hc ▸ List.mem_cons_self _ _)
      rw [List.cons_append, List.indexOf_cons]
      have hb : (x == a) = false := by simpa using hxa
      rw [hb]
      simp only [cond_false, List.length_cons]
      rw [ih (fun hc => h (List.mem_cons_of_mem _ hc))]

theorem kahnInv_step (g : WorkflowGraph) (hclean : CleanAdj g)
    (q : String) (qs result : List String) (inDeg : List (String × Int))
    (hinv : KahnInv g (q :: qs) result inDeg) :
    KahnInv g (qs ++ (kahnDecr inDeg (getD (buildAdjacencyList g) q [])).2)
      (result ++ [q]) (kahnDecr inDeg (getD (buildAdjacencyList g) q [])).1 := by
  set adj := buildAdjacencyList g with hadj
  set nbrsq := getD adj q [] with hnbrsq
  set zs := (kahnDecr inDeg nbrsq).2 with hzs
  set m' := (kahnDecr inDeg nbrsq).1 with hm'
  have hbase : ((result ++ [q]) ++ qs).Nodup := by
    have := hinv.nodup
    rwa [List.append_cons] at this
  have hqR : q ∉ result := by
    have := (List.nodup_append.mp hinv.nodup).2.2
    exact fun hc => this hc (List.mem_cons_self _ _)
  have hqkeys : q ∈ nodeKeys g :=
    hinv.subKeys q (List.mem_append.mpr (Or.inr (List.mem_cons_self _ _)))
  have hdoneR' : ∀ v, doneSum g (result ++ [q]) v =
      doneSum g result v + nbrsq.count v := fun v => doneSum_append g result q hqR v
  have hdeg' : ∀ v, getD m' v 0 =
      (inboundCount g v : Int) - (doneSum g (result ++ [q]) v : Int) := by
    intro v
    rw [hm', (kahnDecr_spec v nbrsq inDeg).1, hinv.deg v, hdoneR' v]
    push_cast
    ring
  have hzmem : ∀ v, v ∈ zs ↔
      (0 < (inboundCount g v : Int) - (doneSum g result v : Int) ∧
       (inboundCount g v : Int) - (doneSum g result v : Int) ≤ (nbrsq.count v : Int)) := by
    intro v
    rw [hzs, kahnDecr_zeros_mem, hinv.deg v]
  have hzkeys : ∀ v ∈ zs, v ∈ nodeKeys g := fun v hv =>
    mem_nbrs_keys g hclean q v (kahnDecr_zeros_subset _ _ _ hv)
  have hznotseen : ∀ v ∈ zs, v ∉ result ∧ v ∉ q :: qs := by
    intro v hv
    have h1 := (hzmem v).mp hv
    have h2 : inboundCount g v ≠ doneSum g result v := by omega
    have h3 := (hinv.seen v (hzkeys v hv)).not
    constructor
    · intro hc
      exact h2 ((hinv.seen v (hzkeys v hv)).mp (Or.inr hc))
    · intro hc
      exact h2 ((hinv.seen v (hzkeys v hv)).mp (Or.inl hc))
  refine ⟨?_, ?_, hdeg', ?_, ?_⟩
  · -- nodup
    rw [← List.append_assoc]
    rw [List.nodup_append]
    refine ⟨hbase, kahnDecr_zeros_nodup _ _, ?_⟩
    intro x hx hxz
    rcases hznotseen x hxz with ⟨h1, h2⟩
    rcases List.mem_append.mp hx with hx | hx
    · rcases List.mem_append.mp hx with hx | hx
      · exact h1 hx
      · have heq := List.mem_singleton.mp hx
        subst heq
        exact h2 (List.mem_cons_self _ _)
    · exact h2 (List.mem_cons_of_mem _ hx)
  · -- subKeys
    intro v hv
    rcases List.mem_append.mp hv with hv | hv
    · rcases List.mem_append.mp hv with hv | hv
      · exact hinv.subKeys v (List.mem_append.mpr (Or.inl hv))
      · have heq := List.mem_singleton.mp hv
        subst heq
        exact hqkeys
    · rcases List.mem_append.mp hv with hv | hv
      · exact hinv.subKeys v
          (List.mem_append.mpr (Or.inr (List.mem_cons_of_mem _ hv)))
      · exact hzkeys v hv
  · -- seen
    intro v hvkeys
    have hsb' : doneSum g (result ++ [q]) v ≤ inboundCount g v := doneSum_le_inbound g _ v
    have hsb : doneSum g result v ≤ inboundCount g v := doneSum_le_inbound g _ v
    constructor
    · intro hv
      rcases hv with hv | hv
      · rcases List.mem_append.mp hv with hv | hv
        · -- v ∈ qs: was in the queue before
          have h1 := (hinv.seen v hvkeys).mp (Or.inl (List.mem_cons_of_mem _ hv))
          have := hdoneR' v
          omega
        · -- v ∈ zs: freshly enqueued at zero
          have h1 := (hzmem v).mp hv
          have := hdoneR' v
          omega
      · rcases List.mem_append.mp hv with hv | hv
        · -- v ∈ result
          have h1 := (hinv.seen v hvkeys).mp (Or.inr hv)
          have := hdoneR' v
          omega
        · -- v = q
          have heq := (List.mem_singleton.mp hv).symm
          subst heq
          have h1 := (hinv.seen q hvkeys).mp (Or.inl (List.mem_cons_self _ _))
          have := hdoneR' q
          omega
    · intro hfull
      by_cases hpre : v ∈ q :: qs ∨ v ∈ result
      · rcases hpre with hv | hv
        · rcases List.mem_cons.mp hv with rfl | hv
          · exact Or.inr (List.mem_append.mpr (Or.inr (List.mem_singleton.mpr rfl)))
          · exact Or.inl (List.mem_append.mpr (Or.inl hv))
        · exact Or.inr (List.mem_append.mpr (Or.inl hv))
      · push_neg at hpre
        have h1 : inboundCount g v ≠ doneSum g result v := by
          intro hc
          exact (hpre.1 |> fun h2 => (hpre.2)
            (by rcases (hinv.seen v hvkeys).mpr hc with h | h
                · exact absurd h hpre.1
                · exact h))
        have h2 := hdoneR' v
        refine Or.inl (List.mem_append.mpr (Or.inr ((hzmem v).mpr ?_)))
        omega
  · -- order
    intro v hv u hvu
    rcases List.mem_append.mp hv with hv | hv
    · rcases hinv.order v hv u hvu with ⟨h1, h2⟩
      refine ⟨List.mem_append.mpr (Or.inl h1), ?_⟩
      rw [List.indexOf_append_of_mem h1, List.indexOf_append_of_mem hv]
      exact h2
    · have heq := (List.mem_singleton.mp hv).symm
      subst heq
      -- v = q: every adjacency occurrence of q comes from a processed node
      have hfull : inboundCount g q = doneSum g result q :=
        (hinv.seen q hqkeys).mp (Or.inl (List.mem_cons_self _ _))
      have hu : u ∈ result := by
        by_contra huR
        rcases ho : lookupM adj u with _ | l
        · rw [getD, ho] at hvu
          cases hvu
        · have hlu : (u, l) ∈ adj := lookupM_mem _ _ _ ho
          have hcount0 := (done_full_iff g result q).mp hfull.symm (u, l) hlu huR
          have hql : q ∈ l := by
            rw [getD, ho] at hvu
            exact hvu
          rw [List.count_eq_zero] at hcount0
          exact hcount0 hql
      refine ⟨List.mem_append.mpr (Or.inl hu), ?_⟩
      rw [List.indexOf_append_of_mem hu, indexOf_append_cons_self result q hqR]
      exact (List.indexOf_lt_length).mpr hu

theorem kahnFinal_of_inv_nil (g : WorkflowGraph) (result : List String)
    (inDeg : List (String × Int)) (hinv : KahnInv g [] result inDeg) :
    KahnFinal g result := by
  refine ⟨by simpa using hinv.nodup,
    fun v hv => hinv.subKeys v (by simpa using hv), hinv.order, ?_⟩
  intro v hv
  have := hinv.seen v hv
  simpa using this

theorem kahnLoop_final (g : WorkflowGraph) (hclean : CleanAdj g) :
    ∀ (fuel : Nat) (queue result : List String) (inDeg : List (String × Int)),
      KahnInv g queue result inDeg →
      queue.length + degSum inDeg < fuel →
      KahnFinal g (kahnLoop (buildAdjacencyList g) fuel queue result inDeg) := by
  intro fuel
  induction fuel with
  | zero => intro queue result inDeg _ hf; exact absurd hf (by omega)
  | succ fuel ih =>
      intro queue result inDeg hinv hf
      cases queue with
      | nil => exact kahnFinal_of_inv_nil g result inDeg hinv
      | cons q qs =>
          have hmeas := kahnDecr_measure (getD (buildAdjacencyList g) q []) inDeg
          simp only [kahnLoop]
          refine ih _ _ _ (kahnInv_step g hclean q qs result inDeg hinv) ?_
          simp only [List.length_cons] at hf
          simp only [List.length_append]
          omega

theorem getD_foldl_const (keys : List String) {α : Type} (c : α) (u : String) :
    getD (keys.foldl (fun m k => insertEntry m k c) []) u c = c := by
  have hseed : keys.foldl (fun m k => insertEntry m k c) [] =
      buildMap (keys.map (fun k => (k, c))) := by
    rw [buildMap, List.foldl_map]
  rw [hseed]
  have hval : ∀ p ∈ buildMap (keys.map (fun k => (k, c))), p.2 = c :=
    mem_buildMap_prop _ _ (fun p hp => by
      rcases List.mem_map.mp hp with ⟨k, _, rfl⟩; rfl)
  rcases ho : lookupM (buildMap (keys.map (fun k => (k, c)))) u with _ | d
  · simp [getD, ho]
  · have := hval (u, d) (lookupM_mem _ _ _ ho)
    simp only [getD, ho, Option.getD_some]
    exact this

theorem getD_bump_fold (l : List String) :
    ∀ (m : List (String × Int)) (v : String),
      getD (l.foldl (fun m n => insertEntry m n (getD m n 0 + 1)) m) v 0 =
        getD m v 0 + (l.count v : Int) := by
  induction l with
  | nil => intro m v; simp
  | cons n rest ih =>
      intro m v
      rw [List.foldl_cons, ih]
      by_cases hv : v = n
      · subst hv
        rw [getD_insertEntry_self]
        have : (v :: rest).count v = rest.count v + 1 := by simp [List.count_cons]
        rw [this]
        push_cast
        ring
      · have hnv : ¬ n = v := fun hc => hv hc.symm
        rw [getD_insertEntry_ne _ _ _ _ _ hv]
        have : (n :: rest).count v = rest.count v := by simp [List.count_cons, hnv]
        rw [this]

theorem getD_initInDegrees (g : WorkflowGraph) (v : String) :
    getD (initInDegrees g) v 0 = (inboundCount g v : Int) := by
  rw [initInDegrees, getD_bump_fold, getD_foldl_const, inboundCount]
  simp

theorem mem_initInDegrees_keys (g : WorkflowGraph) (v : String) :
    v ∈ (initInDegrees g).map (fun p => p.1) ↔
      v ∈ nodeKeys g ∨
      v ∈ ((buildAdjacencyList g).map (fun p => p.2)).flatten := by
  rw [initInDegrees,
    mem_keys_foldl_insertEntry _ (fun n => n) (fun m n => getD m n 0 + 1),
    mem_keys_foldl_insertEntry _ (fun k => k) (fun _ _ => (0 : Int))]
  simp

theorem initInDegrees_keys_nodup (g : WorkflowGraph) :
    ((initInDegrees g).map (fun p => p.1)).Nodup := by
  rw [initInDegrees]
  refine nodup_keys_foldl_insertEntry _ (fun n => n) (fun m n => getD m n 0 + 1) _ ?_
  exact nodup_keys_foldl_insertEntry _ (fun k => k) (fun _ _ => (0 : Int)) [] (by simp)

theorem kahnInv_init (g : WorkflowGraph) (hclean : CleanAdj g) :
    KahnInv g (((initInDegrees g).filter (fun p => p.2 == 0)).map (fun p => p.1)) []
      (initInDegrees g) := by
  have hflatkeys : ∀ x ∈ ((buildAdjacencyList g).map (fun p => p.2)).flatten,
      x ∈ nodeKeys g := by
    intro x hx
    rcases List.mem_flatten.mp hx with ⟨l, hl, hxl⟩
    rcases List.mem_map.mp hl with ⟨p, hp, rfl⟩
    exact (hclean p hp).2 x hxl
  have hqkeys : ∀ v ∈ ((initInDegrees g).filter (fun p => p.2 == 0)).map (fun p => p.1),
      v ∈ nodeKeys g := by
    intro v hv
    rcases List.mem_map.mp hv with ⟨p, hp, rfl⟩
    have hpi : p ∈ initInDegrees g := List.mem_of_mem_filter hp
    have : p.1 ∈ (initInDegrees g).map (fun p => p.1) := List.mem_map_of_mem _ hpi
    rcases (mem_initInDegrees_keys g p.1).mp this with h | h
    · exact h
    · exact hflatkeys p.1 h
  refine ⟨?_, ?_, ?_, ?_, ?_⟩
  · simp only [List.nil_append]
    refine List.Nodup.sublist ?_ (initInDegrees_keys_nodup g)
    exact List.Sublist.map _ (List.filter_sublist _)
  · intro v hv
    simp only [List.nil_append] at hv
    exact hqkeys v hv
  · intro v
    rw [getD_initInDegrees, doneSum_nil]
    simp
  · intro v hv
    simp only [List.not_mem_nil, or_false, doneSum_nil]
    constructor
    · intro hq
      rcases List.mem_map.mp hq with ⟨p, hp, rfl⟩
      rcases List.mem_filter.mp hp with ⟨hpi, hp0⟩
      have hval : lookupM (initInDegrees g) p.1 = some p.2 :=
        lookupM_of_mem_nodup _ (initInDegrees_keys_nodup g) p.1 p.2 (by
          cases p
          exact hpi)
      have hg : getD (initInDegrees g) p.1 0 = p.2 := by simp [getD, hval]
      have h0 : p.2 = 0 := by simpa using hp0
      have := getD_initInDegrees g p.1
      rw [hg, h0] at this
      omega
    · intro h0
      have hvk : v ∈ (initInDegrees g).map (fun p => p.1) :=
        (mem_initInDegrees_keys g v).mpr (Or.inl hv)
      rcases Option.isSome_iff_exists.mp ((lookupM_isSome_iff _ _).mpr hvk) with ⟨d, hd⟩
      have hg : getD (initInDegrees g) v 0 = d := by simp [getD, hd]
      have hinit := getD_initInDegrees g v
      rw [hg, h0] at hinit
      have hmem : (v, d) ∈ initInDegrees g := lookupM_mem _ _ _ hd
      have : (v, d) ∈ (initInDegrees g).filter (fun p => p.2 == 0) :=
        List.mem_filter.mpr ⟨hmem, by simp [hinit]⟩
      exact List.mem_map_of_mem _ this
  · intro v hv
    cases hv

theorem kahnRun_final (g : WorkflowGraph) (hclean : CleanAdj g) :
    KahnFinal g (kahnRun g) := by
  simp only [kahnRun]
  refine kahnLoop_final g hclean (kahnFuel g) _ [] (initInDegrees g)
    (kahnInv_init g hclean) ?_
  rw [kahnFuel]
  have h1 : (((initInDegrees g).filter (fun p => p.2 == 0)).map (fun p => p.1)).length ≤
      (initInDegrees g).length := by
    rw [List.length_map]
    exact List.length_filter_le _ _
  omega

/-! ### Consequences of the Kahn invariant -/

theorem nodeKeys_nodup (g : WorkflowGraph) : (nodeKeys g).Nodup := by
  rw [nodeKeys, nodesMap]
  exact nodup_keys_buildMap _

theorem kahnRun_cycle_not_mem (g : WorkflowGraph) (hclean : CleanAdj g) (v : String)
    (hcyc : Relation.TransGen (stepAdj g) v v) : v ∉ kahnRun g := by
  intro hv
  have hfin := kahnRun_final g hclean
  have key : ∀ a b, Relation.TransGen (stepAdj g) a b → b ∈ kahnRun g →
      a ∈ kahnRun g ∧
        List.indexOf a (kahnRun g) < List.indexOf b (kahnRun g) := by
    intro a b htg
    induction htg with
    | single h => intro hb; exact hfin.order _ hb _ h
    | tail _ hstep ih =>
        intro hc
        rcases hfin.order _ hc _ hstep with ⟨hb1, hlt1⟩
        rcases ih hb1 with ⟨ha, hlt2⟩
        exact ⟨ha, lt_trans hlt2 hlt1⟩
  rcases key v v hcyc hv with ⟨_, hlt⟩
  exact lt_irrefl _ hlt

theorem cycle_node_mem_keys (g : WorkflowGraph) (hclean : CleanAdj g) (v : String)
    (hcyc : Relation.TransGen (stepAdj g) v v) : v ∈ nodeKeys g := by
  rcases (Relation.TransGen.tail'_iff).mp hcyc with ⟨b, _, hstep⟩
  exact mem_nbrs_keys g hclean b v hstep

theorem kahnRun_length_lt (g : WorkflowGraph) (hclean : CleanAdj g) (v : String)
    (hv : v ∈ nodeKeys g) (hnv : v ∉ kahnRun g) :
    (kahnRun g).length < (nodeKeys g).length := by
  have hfin := kahnRun_final g hclean
  have hsub : (kahnRun g).toFinset ⊆ (nodeKeys g).toFinset := fun x hx =>
    List.mem_toFinset.mpr (hfin.subKeys x (List.mem_toFinset.mp hx))
  have hss : (kahnRun g).toFinset ⊂ (nodeKeys g).toFinset := by
    refine Finset.ssubset_iff_of_subset hsub |>.mpr ?_
    exact ⟨v, List.mem_toFinset.mpr hv, fun hc => hnv (List.mem_toFinset.mp hc)⟩
  have hcard := Finset.card_lt_card hss
  rwa [List.toFinset_card_of_nodup hfin.nodup,
    List.toFinset_card_of_nodup (nodeKeys_nodup g)] at hcard

theorem kahnRun_complete (g : WorkflowGraph) (hclean : CleanAdj g)
    (hacyc : ¬ ∃ v, Relation.TransGen (stepAdj g) v v) :
    ∀ v ∈ nodeKeys g, v ∈ kahnRun g := by
  by_contra hc
  push_neg at hc
  rcases hc with ⟨v₀, hv₀k, hv₀r⟩
  have hfin := kahnRun_final g hclean
  set T : Finset String := (nodeKeys g).toFinset \ (kahnRun g).toFinset with hT
  have hv₀T : v₀ ∈ T := Finset.mem_sdiff.mpr
    ⟨List.mem_toFinset.mpr hv₀k, fun hc => hv₀r (List.mem_toFinset.mp hc)⟩
  have hstepT : ∀ v ∈ T, ∃ u ∈ T, stepAdj g u v := by
    intro v hvT
    rcases Finset.mem_sdiff.mp hvT with ⟨hvk', hvr'⟩
    have hvk := List.mem_toFinset.mp hvk'
    have hvr : v ∉ kahnRun g := fun hcc => hvr' (List.mem_toFinset.mpr hcc)
    have hne : inboundCount g v ≠ doneSum g (kahnRun g) v := fun hcc =>
      hvr ((hfin.seen v hvk).mpr hcc)
    have hsplit := inbound_eq_done_add_rest g (kahnRun g) v
    have hpos : 0 < ((buildAdjacencyList g).map
        (fun p => if p.1 ∈ kahnRun g then 0 else p.2.count v)).sum := by omega
    have hex : ∃ p ∈ buildAdjacencyList g, p.1 ∉ kahnRun g ∧ 0 < p.2.count v := by
      by_contra hno
      push_neg at hno
      have hzero : ((buildAdjacencyList g).map
          (fun p => if p.1 ∈ kahnRun g then 0 else p.2.count v)).sum = 0 := by
        refine (List.sum_eq_zero_iff).mpr (fun x hx => ?_)
        rcases List.mem_map.mp hx with ⟨p, hp, rfl⟩
        by_cases hm : p.1 ∈ kahnRun g
        · simp [hm]
        · have := hno p hp hm
          simp only [hm, if_false]
          omega
      omega
    rcases hex with ⟨p, hp, hpR, hpc⟩
    refine ⟨p.1, ?_, ?_⟩
    · exact Finset.mem_sdiff.mpr
        ⟨List.mem_toFinset.mpr ((hclean p hp).1),
         fun hcc => hpR (List.mem_toFinset.mp hcc)⟩
    · have hval : getD (buildAdjacencyList g) p.1 [] = p.2 := by
        have := lookupM_of_mem_nodup _ (adjKeys_nodup g) p.1 p.2 (by
          cases p
          exact hp)
        simp [getD, this]
      rw [stepAdj, hval]
      exact (List.count_pos_iff).mp hpc
  have hex2 : ∀ x : {x // x ∈ T}, ∃ y : {y // y ∈ T}, stepAdj g y.1 x.1 := by
    rintro ⟨x, hx⟩
    rcases hstepT x hx with ⟨u, hu, hsu⟩
    exact ⟨⟨u, hu⟩, hsu⟩
  choose pred hpred using hex2
  have hfs : ∀ n : ℕ, stepAdj g (pred^[n + 1] ⟨v₀, hv₀T⟩).1 (pred^[n] ⟨v₀, hv₀T⟩).1 := by
    intro n
    rw [Function.iterate_succ_apply' pred n _]
    exact hpred _
  have hchain : ∀ n k : ℕ,
      Relation.TransGen (stepAdj g) (pred^[n + k + 1] ⟨v₀, hv₀T⟩).1
        (pred^[n] ⟨v₀, hv₀T⟩).1 := by
    intro n k
    induction k with
    | zero => exact Relation.TransGen.single (hfs n)
    | succ k ih => exact Relation.TransGen.head (hfs (n + k + 1)) ih
  have hmaps : ∀ n ∈ Finset.range (T.card + 1), (pred^[n] ⟨v₀, hv₀T⟩).1 ∈ T :=
    fun n _ => (pred^[n] ⟨v₀, hv₀T⟩).2
  have hcard : T.card < (Finset.range (T.card + 1)).card := by simp
  rcases Finset.exists_ne_map_eq_of_card_lt_of_maps_to hcard hmaps with
    ⟨i, _, j, _, hij, hfij⟩
  rcases Nat.lt_or_ge i j with hlt | hge
  · have hj' : j = i + (j - i - 1) + 1 := by omega
    have htg := hchain i (j - i - 1)
    rw [← hj'] at htg
    rw [hfij] at htg
    exact hacyc ⟨_, htg⟩
  · have hlt : j < i := by omega
    have hi' : i = j + (i - j - 1) + 1 := by omega
    have htg := hchain j (i - j - 1)
    rw [← hi'] at htg
    rw [← hfij] at htg
    exact hacyc ⟨_, htg⟩

theorem kahnRun_perm_keys (g : WorkflowGraph) (hclean : CleanAdj g)
    (hacyc : ¬ ∃ v, Relation.TransGen (stepAdj g) v v) :
    (kahnRun g).Perm (nodeKeys g) := by
  have hfin := kahnRun_final g hclean
  refine (List.perm_ext_iff_of_nodup hfin.nodup (nodeKeys_nodup g)).mpr (fun a => ?_)
  exact ⟨fun h => hfin.subKeys a h, fun h => kahnRun_complete g hclean hacyc a h⟩

/-! ### DFS cycle-detection completeness

The invariant records the finished vertices in finish order: every
neighbor of a finished vertex finished strictly earlier, so edges out of
finished vertices always decrease the finish index and no finished vertex
lies on a cycle. -/

theorem dfsVisit_eq_foldl (adj : List (String × List String)) (fuel : Nat)
    (u : String) (path visited : List String) :
    dfsVisit adj (fuel + 1) u path visited =
      (getD adj u []).foldl (dfsStep adj fuel (path ++ [u])) (none, u :: visited) := rfl

theorem foldl_dfsStep_some (adj : List (String × List String)) (fuel : Nat)
    (path : List String) (ns : List String) (c : List String) (vis : List String) :
    ns.foldl (dfsStep adj fuel path) (some c, vis) = (some c, vis) := by
  induction ns with
  | nil => rfl
  | cons n rest ih => rw [List.foldl_cons]; exact ih

theorem prefixClosed_nil (g : WorkflowGraph) : PrefixClosed g [] := by
  intro i hi
  simp at hi

theorem prefixClosed_append (g : WorkflowGraph) (fin : List String) (u : String)
    (hc : PrefixClosed g fin)
    (hu : ∀ w ∈ getD (buildAdjacencyList g) u [], w ∈ fin) :
    PrefixClosed g (fin ++ [u]) := by
  intro i hi w hw
  replace hw : w ∈ getD (buildAdjacencyList g) ((fin ++ [u])[i]) [] := hw
  by_cases hlt : i < fin.length
  · rw [List.getElem_append_left hlt] at hw
    have := hc i hlt w hw
    rw [List.take_append_eq_append_take]
    exact List.mem_append.mpr (Or.inl this)
  · have hieq : i = fin.length := by
      simp only [List.length_append, List.length_singleton] at hi
      omega
    subst hieq
    rw [List.getElem_append_right (le_refl _)] at hw
    simp only [Nat.sub_self, List.getElem_singleton] at hw
    rw [List.take_left]
    exact hu w hw

theorem mem_take_indexOf (l : List String) (i : Nat) (b : String)
    (h : b ∈ l.take i) : List.indexOf b l < i := by
  induction l generalizing i with
  | nil => simp at h
  | cons x rest ih =>
      cases i with
      | zero => simp at h
      | succ j =>
          rw [List.take_succ_cons] at h
          rcases List.mem_cons.mp h with rfl | h
          · rw [List.indexOf_cons]
            simp
          · rw [List.indexOf_cons]
            by_cases hx : x == b
            · simp [hx]
            · simp only [hx, cond_false]
              have := ih j h
              omega

theorem prefixClosed_no_cycle (g : WorkflowGraph) (fin : List String)
    (hc : PrefixClosed g fin) :
    ∀ v ∈ fin, ¬ Relation.TransGen (stepAdj g) v v := by
  have hstep : ∀ a b, stepAdj g a b → a ∈ fin →
      b ∈ fin ∧ List.indexOf b fin < List.indexOf a fin := by
    intro a b hab ha
    have hia : List.indexOf a fin < fin.length := (List.indexOf_lt_length).mpr ha
    have hget : fin.get ⟨List.indexOf a fin, hia⟩ = a := List.getElem_indexOf hia
    have hb : b ∈ fin.take (List.indexOf a fin) := by
      refine hc (List.indexOf a fin) hia b ?_
      rw [hget]
      exact hab
    exact ⟨List.mem_of_mem_take hb, mem_take_indexOf _ _ _ hb⟩
  intro v hv hcyc
  have key : ∀ a b, Relation.TransGen (stepAdj g) a b → a ∈ fin →
      b ∈ fin ∧ List.indexOf b fin < List.indexOf a fin := by
    intro a b htg
    induction htg with
    | single h => intro ha; exact hstep _ _ h ha
    | tail _ hs ih =>
        intro ha
        rcases ih ha with ⟨hb, hlt⟩
        rcases hstep _ _ hs hb with ⟨hcm, hlt2⟩
        exact ⟨hcm, lt_trans hlt2 hlt⟩
  rcases key v v hcyc hv with ⟨_, hlt⟩
  exact lt_irrefl _ hlt

theorem dfsFoldSound_of_visit (g : WorkflowGraph) (fuel : Nat)
    (hv : DfsVisitSound g fuel) : DfsFoldSound g fuel := by
  intro ns
  induction ns with
  | nil =>
      intro path visited fin vis' hinv heq
      simp only [List.foldl_nil] at heq
      cases heq
      exact ⟨[], by rw [List.append_nil]; exact hinv, by simp⟩
  | cons n rest ih =>
      intro path visited fin vis' hinv heq
      rw [List.foldl_cons] at heq
      by_cases hnv : n ∈ visited
      · by_cases hnp : n ∈ path
        · rw [show dfsStep (buildAdjacencyList g) fuel path (none, visited) n =
              (some (path.dropWhile (fun x => x ≠ n)), visited) from by
                simp [dfsStep, hnv, hnp]] at heq
          rw [foldl_dfsStep_some] at heq
          simp at heq
        · rw [show dfsStep (buildAdjacencyList g) fuel path (none, visited) n =
              (none, visited) from by simp [dfsStep, hnv, hnp]] at heq
          rcases ih path visited fin vis' hinv heq with ⟨ext, hinv', hall⟩
          refine ⟨ext, hinv', fun x hx => ?_⟩
          rcases List.mem_cons.mp hx with rfl | hx
          · rcases (hinv.mem_iff x).mp hnv with hf | hp
            · exact List.mem_append.mpr (Or.inl hf)
            · exact absurd hp hnp
          · exact hall x hx
      · rw [show dfsStep (buildAdjacencyList g) fuel path (none, visited) n =
            dfsVisit (buildAdjacencyList g) fuel n path visited from by
              simp [dfsStep, hnv]] at heq
        rcases hrec : dfsVisit (buildAdjacencyList g) fuel n path visited with ⟨o, vis₁⟩
        rw [hrec] at heq
        cases o with
        | some c =>
            rw [foldl_dfsStep_some] at heq
            simp at heq
        | none =>
            rcases hv n path visited fin vis₁ hinv hnv hrec with ⟨ext₁, hinv₁, hn₁⟩
            rcases ih path vis₁ (fin ++ ext₁) vis' hinv₁ heq with ⟨ext₂, hinv₂, hall⟩
            refine ⟨ext₁ ++ ext₂, ?_, ?_⟩
            · rwa [← List.append_assoc]
            · intro x hx
              rcases List.mem_cons.mp hx with rfl | hx
              · rw [← List.append_assoc]
                exact List.mem_append.mpr (Or.inl hn₁)
              · rw [← List.append_assoc]
                exact hall x hx

theorem dfsVisitSound_succ (g : WorkflowGraph) (fuel : Nat)
    (hf : DfsFoldSound g fuel) : DfsVisitSound g (fuel + 1) := by
  intro u path visited fin vis' hinv hu heq
  rw [dfsVisit_eq_foldl] at heq
  have hufin : u ∉ fin := fun hc => hu ((hinv.mem_iff u).mpr (Or.inl hc))
  have hinv₁ : DfsInv g (u :: visited) (path ++ [u]) fin := by
    refine ⟨?_, hinv.nodupFin, ?_, hinv.closed⟩
    · intro v
      constructor
      · intro hv
        rcases List.mem_cons.mp hv with rfl | hv
        · exact Or.inr (List.mem_append.mpr (Or.inr (List.mem_singleton.mpr rfl)))
        · rcases (hinv.mem_iff v).mp hv with h | h
          · exact Or.inl h
          · exact Or.inr (List.mem_append.mpr (Or.inl h))
      · intro hv
        rcases hv with h | h
        · exact List.mem_cons_of_mem _ ((hinv.mem_iff v).mpr (Or.inl h))
        · rcases List.mem_append.mp h with h | h
          · exact List.mem_cons_of_mem _ ((hinv.mem_iff v).mpr (Or.inr h))
          · have hvu : v = u := List.mem_singleton.mp h
            rw [hvu]
            exact List.mem_cons_self _ _
    · intro v hv
      rcases List.mem_append.mp hv with h | h
      · exact hinv.disj v h
      · have hvu : v = u := List.mem_singleton.mp h
        rw [hvu]
        exact hufin
  rcases hf (getD (buildAdjacencyList g) u []) (path ++ [u]) (u :: visited) fin vis'
    hinv₁ heq with ⟨ext, hinv₂, hall⟩
  have huext : u ∉ fin ++ ext := fun hc =>
    (hinv₂.disj u (List.mem_append.mpr (Or.inr (List.mem_singleton.mpr rfl)))) hc
  refine ⟨ext ++ [u], ?_, ?_⟩
  · have hassoc : fin ++ (ext ++ [u]) = (fin ++ ext) ++ [u] :=
      (List.append_assoc _ _ _).symm
    rw [hassoc]
    refine ⟨?_, ?_, ?_, ?_⟩
    · intro v
      rw [hinv₂.mem_iff v]
      constructor
      · intro hv
        rcases hv with h | h
        · exact Or.inl (List.mem_append.mpr (Or.inl h))
        · rcases List.mem_append.mp h with h | h
          · exact Or.inr h
          · exact Or.inl (List.mem_append.mpr (Or.inr h))
      · intro hv
        rcases hv with h | h
        · rcases List.mem_append.mp h with h | h
          · exact Or.inl h
          · exact Or.inr (List.mem_append.mpr (Or.inr h))
        · exact Or.inr (List.mem_append.mpr (Or.inl h))
    · rw [List.nodup_append]
      exact ⟨hinv₂.nodupFin, List.nodup_singleton _,
        fun x hx hxu => huext ((List.mem_singleton.mp hxu) ▸ hx)⟩
    · intro v hv hc
      rcases List.mem_append.mp hc with h | h
      · exact hinv₂.disj v (List.mem_append.mpr (Or.inl hv)) h
      · have hvu : v = u := List.mem_singleton.mp h
        have hvis : v ∈ visited := (hinv.mem_iff v).mpr (Or.inr hv)
        rw [hvu] at hvis
        exact hu hvis
    · exact prefixClosed_append g (fin ++ ext) u hinv₂.closed hall
  · rw [← List.append_assoc]
    exact List.mem_append.mpr (Or.inr (List.mem_singleton.mpr rfl))

theorem dfs_none_sound (g : WorkflowGraph) :
    ∀ fuel : Nat, DfsVisitSound g fuel ∧ DfsFoldSound g fuel := by
  intro fuel
  induction fuel with
  | zero =>
      have hv : DfsVisitSound g 0 := by
        intro u path visited fin vis' _ _ heq
        simp [dfsVisit] at heq
      exact ⟨hv, dfsFoldSound_of_visit g 0 hv⟩
  | succ fuel ih =>
      have hv := dfsVisitSound_succ g fuel ih.2
      exact ⟨hv, dfsFoldSound_of_visit g (fuel + 1) hv⟩

theorem dfsRoots_none_sound (g : WorkflowGraph) :
    ∀ (ks : List String) (visited fin vis' : List String),
      DfsInv g visited [] fin →
      dfsRoots (buildAdjacencyList g) (dfsFuel g) ks visited = (none, vis') →
      ∃ ext, DfsInv g vis' [] (fin ++ ext) ∧ ∀ k ∈ ks, k ∈ fin ++ ext := by
  intro ks
  induction ks with
  | nil =>
      intro visited fin vis' hinv heq
      simp only [dfsRoots] at heq
      cases heq
      exact ⟨[], by rw [List.append_nil]; exact hinv, by simp⟩
  | cons k rest ih =>
      intro visited fin vis' hinv heq
      simp only [dfsRoots] at heq
      by_cases hk : k ∈ visited
      · rw [if_pos hk] at heq
        rcases ih visited fin vis' hinv heq with ⟨ext, hinv', hall⟩
        refine ⟨ext, hinv', fun x hx => ?_⟩
        rcases List.mem_cons.mp hx with rfl | hx
        · rcases (hinv.mem_iff x).mp hk with h | h
          · exact List.mem_append.mpr (Or.inl h)
          · cases h
        · exact hall x hx
      · rw [if_neg hk] at heq
        rcases hrec : dfsVisit (buildAdjacencyList g) (dfsFuel g) k [] visited with ⟨o, vis₁⟩
        rw [hrec] at heq
        cases o with
        | some c => simp at heq
        | none =>
            rcases (dfs_none_sound g (dfsFuel g)).1 k [] visited fin vis₁ hinv hk hrec with
              ⟨ext₁, hinv₁, hk₁⟩
            rcases ih vis₁ (fin ++ ext₁) vis' hinv₁ heq with ⟨ext₂, hinv₂, hall⟩
            refine ⟨ext₁ ++ ext₂, by rwa [← List.append_assoc], fun x hx => ?_⟩
            rcases List.mem_cons.mp hx with rfl | hx
            · rw [← List.append_assoc]
              exact List.mem_append.mpr (Or.inl hk₁)
            · rw [← List.append_assoc]
              exact hall x hx

theorem detectCycles_complete (g : WorkflowGraph) (hclean : CleanAdj g) (v : String)
    (hcyc : Relation.TransGen (stepAdj g) v v) :
    (detectCycles g).hasCycle = true := by
  rcases hr : dfsRoots (buildAdjacencyList g) (dfsFuel g) (nodeKeys g) [] with ⟨o, vis'⟩
  cases o with
  | some c => simp [detectCycles, hr]
  | none =>
      exfalso
      have hinv0 : DfsInv g [] [] [] :=
        ⟨by simp, List.nodup_nil, by simp, prefixClosed_nil g⟩
      rcases dfsRoots_none_sound g (nodeKeys g) [] [] vis' hinv0 hr with ⟨ext, hinv', hall⟩
      have hvk := cycle_node_mem_keys g hclean v hcyc
      exact prefixClosed_no_cycle g ([] ++ ext) hinv'.closed v (hall v hvk) hcyc

/-! ## Claim C1 — custom-to-custom compatibility

The "exact kind match" clause of `checkPortCompatibility` fires for any
two `custom` port types (their `kind` discriminants are both `"custom"`),
so the name comparison below it is dead code and two `custom` types with
different names are reported compatible. -/

/-- C1: the code evaluated at the claim's own failing input.  The claim
(and the specification, and the code's `custom: true // Requires name
check` compatibility-matrix comment) requires
`checkPortCompatibility({kind:'custom',typeName:'Foo'},
{kind:'custom',typeName:'Bar'})` to be invalid, but the function returns
`valid = true`: the equal-kind clause precedes the name check, which is
therefore unreachable. -/
theorem C1_custom_name_check_dead :
    (checkPortCompatibility (.custom "Foo") (.custom "Foo")).valid = true ∧
    (checkPortCompatibility (.custom "Foo") (.custom "Bar")).valid = true := by
  exact ⟨rfl, rfl⟩

/-! ## Claim C2 — unknown node category/type -/

/-- C2 counterexample: the claim states that every unrecognised
category/type combination signals a fatal "unknown node" error, but a node
of category `trigger` with the unrecognised type `trigger.webhook`
executes without error and silently produces an empty output record
(`executeTrigger` falls through to `return {}`). -/
theorem C2_counterexample_unknown_type_is_silent :
    executeNodeLogic unknownTriggerNode [] ⟨"wf", [], 0⟩ initialState =
      .ok ([], initialState) := rfl

/-- C2 (amended): only a node whose *category* is outside the closed set
{trigger, logic, transform, effect, data} signals the fatal
"Unknown node category" error; an unrecognised type inside a recognised
category silently yields an empty (or passthrough) output record. -/
theorem C2_unknown_category_fatal (node : WorkflowNode) (inputs : List (String × Value))
    (context : ExecutionContext) (st : ExecState)
    (h : node.category ∉ (["trigger", "logic", "transform", "effect", "data"] : List String)) :
    executeNodeLogic node inputs context st =
      .error ("Unknown node category: " ++ node.category, st) := by
  simp only [List.mem_cons, List.not_mem_nil, or_false, not_or] at h
  obtain ⟨h1, h2, h3, h4, h5⟩ := h
  simp [executeNodeLogic, h1, h2, h3, h4, h5]

/-- C2 witness: the amended theorem applied at a concrete node of the
unrecognised category `"frobnicate"`. -/
theorem C2_unknown_category_fatal_witness :
    ("frobnicate" ∉ (["trigger", "logic", "transform", "effect", "data"] : List String)) ∧
    executeNodeLogic ⟨"n1", "x", "frobnicate", "n1", [], [], []⟩ [] ⟨"wf", [], 0⟩ initialState =
      .error ("Unknown node category: frobnicate", initialState) :=
  ⟨by decide,
   C2_unknown_category_fatal ⟨"n1", "x", "frobnicate", "n1", [], [], []⟩ [] ⟨"wf", [], 0⟩
     initialState (by decide)⟩

/-! ## Claim C5 — invalid graphs refuse execution -/

/-- C5: if `validate` reports the graph invalid, `execute` fails
immediately with the aggregate error (count of validation errors) and the
accumulated logs (still empty), leaving the run state untouched: no node
output is stored, no node is marked executed.  And on the Scenario B graph
`validate` yields exactly one `unsatisfied-input` error naming the
node/port, so `execute` refuses to run it. -/
theorem C5_invalid_graph_refuses_execution :
    (∀ (g : WorkflowGraph) (context : ExecutionContext),
      (validate g).valid = false →
      execute g context =
        (.failure ("Graph validation failed: " ++ toString (validate g).errors.length ++
            " errors") [],
         initialState)) ∧
    (validate scenarioB).errors = [.unsatisfiedInput "node1" "in1"] ∧
    (validate scenarioB).valid = false := by
  refine ⟨fun g context h => ?_, by decide, by decide⟩
  simp [execute, h, initialState]

/-- C5 witness: the universal part applied to the Scenario B graph. -/
theorem C5_invalid_graph_refuses_execution_witness :
    (validate scenarioB).valid = false ∧
    execute scenarioB ⟨"wf", [], 0⟩ =
      (.failure ("Graph validation failed: " ++ toString (validate scenarioB).errors.length ++
          " errors") [],
       initialState) :=
  ⟨by decide, C5_invalid_graph_refuses_execution.1 scenarioB ⟨"wf", [], 0⟩ (by decide)⟩

/-! ## Claim C3 — cycle detection and topological sorting -/

theorem nodesMap_of_nodup (g : WorkflowGraph)
    (hN : (g.nodes.map (fun n => n.id)).Nodup) :
    nodesMap g = g.nodes.map (fun n => (n.id, n)) := by
  rw [nodesMap]
  refine buildMap_self _ ?_
  rw [List.map_map]
  exact hN

theorem nodeKeys_length_of_nodup (g : WorkflowGraph)
    (hN : (g.nodes.map (fun n => n.id)).Nodup) :
    (nodeKeys g).length = g.nodes.length := by
  rw [nodeKeys, nodesMap_of_nodup g hN, List.length_map, List.length_map]

theorem transGen_stepRel_iff_stepAdj (g : WorkflowGraph)
    (hE : (g.edges.map (fun e => e.id)).Nodup) (a b : String) :
    Relation.TransGen (stepRel g) a b ↔ Relation.TransGen (stepAdj g) a b :=
  ⟨Relation.TransGen.mono (fun x y h => (stepAdj_iff_clean g hE x y).mpr h),
   Relation.TransGen.mono (fun x y h => (stepAdj_iff_clean g hE x y).mp h)⟩

/-- C3 (amended to well-formed graphs: distinct node ids, distinct edge
ids, and edge endpoints that exist — precisely the properties whose
violation the validator reports as `duplicate-node-id`,
`duplicate-edge-id` and `missing-node` errors): if the graph contains a
directed cycle, `detectCycles` reports `hasCycle = true` and
`topologicalSort` fails with `problematicNodes` equal to the node keys
absent from the partial Kahn order, which include every node lying on some
cycle; if the graph is acyclic, `topologicalSort` succeeds with an order
containing every node exactly once in which no edge's target precedes its
source. -/
theorem C3_cycle_detection_and_topological_sort (g : WorkflowGraph)
    (hN : (g.nodes.map (fun n => n.id)).Nodup)
    (hE : (g.edges.map (fun e => e.id)).Nodup)
    (hEnds : ∀ e ∈ g.edges, e.source ∈ g.nodes.map (fun n => n.id) ∧
                            e.target ∈ g.nodes.map (fun n => n.id)) :
    (hasDirectedCycle g →
      (detectCycles g).hasCycle = true ∧
      topologicalSort g = .failure "Graph contains cycles"
        ((nodeKeys g).filter (fun id => ! (kahnRun g).contains id)) ∧
      (∀ v, Relation.TransGen (stepRel g) v v →
        v ∈ (nodeKeys g).filter (fun id => ! (kahnRun g).contains id))) ∧
    (¬ hasDirectedCycle g →
      topologicalSort g = .success (kahnRun g) ∧
      (kahnRun g).length = g.nodes.length ∧
      (kahnRun g).Nodup ∧
      (∀ e ∈ g.edges,
        List.indexOf e.source (kahnRun g) < List.indexOf e.target (kahnRun g))) := by
  have hclean := cleanAdj_of_ends g hEnds
  have hkeyslen : (nodeKeys g).length = (nodesMap g).length := by
    rw [nodeKeys, List.length_map]
  constructor
  · rintro ⟨v, hv⟩
    have hv' : Relation.TransGen (stepAdj g) v v :=
      (transGen_stepRel_iff_stepAdj g hE v v).mp hv
    have hnotmem : ∀ w, Relation.TransGen (stepRel g) w w →
        w ∈ (nodeKeys g).filter (fun id => ! (kahnRun g).contains id) := by
      intro w hw
      have hw' := (transGen_stepRel_iff_stepAdj g hE w w).mp hw
      have hwk := cycle_node_mem_keys g hclean w hw'
      have hwr := kahnRun_cycle_not_mem g hclean w hw'
      exact List.mem_filter.mpr ⟨hwk, by simpa using hwr⟩
    have hlt := kahnRun_length_lt g hclean v (cycle_node_mem_keys g hclean v hv')
      (kahnRun_cycle_not_mem g hclean v hv')
    have hne : (kahnRun g).length ≠ (nodesMap g).length := by omega
    refine ⟨detectCycles_complete g hclean v hv', ?_, hnotmem⟩
    rw [topologicalSort]
    rw [if_pos hne]
  · intro hnc
    have hacyc : ¬ ∃ v, Relation.TransGen (stepAdj g) v v := by
      rintro ⟨v, hv⟩
      exact hnc ⟨v, (transGen_stepRel_iff_stepAdj g hE v v).mpr hv⟩
    have hperm := kahnRun_perm_keys g hclean hacyc
    have hlen : (kahnRun g).length = g.nodes.length := by
      rw [hperm.length_eq, nodeKeys_length_of_nodup g hN]
    have hfin := kahnRun_final g hclean
    refine ⟨?_, hlen, hfin.nodup, ?_⟩
    · rw [topologicalSort]
      rw [if_neg (by rw [hperm.length_eq, hkeyslen]; exact fun hc => hc rfl)]
    · intro e he
      have hstep : stepAdj g e.source e.target :=
        (stepAdj_iff_clean g hE e.source e.target).mpr ⟨e, he, rfl, rfl⟩
      have htk : e.target ∈ nodeKeys g := (mem_nodeKeys_iff g _).mpr (hEnds e he).2
      have htr : e.target ∈ kahnRun g := kahnRun_complete g hclean hacyc _ htk
      exact (hfin.order e.target htr e.source hstep).2

/-- `gPhantomSource` contains no directed cycle: its only raw edge goes
from `X` to `B`, and `X ≠ B`. -/
theorem gPhantomSource_acyclic : ¬ hasDirectedCycle gPhantomSource := by
  rintro ⟨v, hv⟩
  have hsteps : ∀ a b, stepRel gPhantomSource a b → a = "X" ∧ b = "B" := by
    intro a b h
    rcases h with ⟨e, he, h1, h2⟩
    have : e = ⟨"e", "X", "p", "B", "i"⟩ := by
      simpa [gPhantomSource] using he
    subst this
    exact ⟨h1.symm, h2.symm⟩
  have hlast : ∀ a b, Relation.TransGen (stepRel gPhantomSource) a b → b = "B" := by
    intro a b htg
    induction htg with
    | single h => exact (hsteps _ _ h).2
    | tail _ hs _ => exact (hsteps _ _ hs).2
  have hfirst : ∀ a b, Relation.TransGen (stepRel gPhantomSource) a b → a = "X" := by
    intro a b htg
    induction htg with
    | single h => exact (hsteps _ _ h).1
    | tail htg' _ ih => exact ih
  have h1 := hlast v v hv
  have h2 := hfirst v v hv
  rw [h1] at h2
  exact absurd h2 (by decide)

/-- C3 counterexample (the acyclic half of the claim as frozen, over all
graphs): `gPhantomSource` contains no directed cycle, yet
`topologicalSort` reports failure — the edge from the nonexistent node `X`
permanently inflates `B`'s in-degree. -/
theorem C3_counterexample_phantom_source_acyclic_failure :
    topologicalSort gPhantomSource = .failure "Graph contains cycles" ["B"] ∧
    ¬ hasDirectedCycle gPhantomSource :=
  ⟨by decide, gPhantomSource_acyclic⟩

/-- C3 witness: the amended theorem applied to the triangle cycle graph,
with an explicit three-edge cycle through node `A`. -/
theorem C3_cycle_detection_and_topological_sort_witness :
    hasDirectedCycle gTriangle ∧
    ((detectCycles gTriangle).hasCycle = true ∧
     topologicalSort gTriangle = .failure "Graph contains cycles"
       ((nodeKeys gTriangle).filter (fun id => ! (kahnRun gTriangle).contains id)) ∧
     (∀ v, Relation.TransGen (stepRel gTriangle) v v →
       v ∈ (nodeKeys gTriangle).filter (fun id => ! (kahnRun gTriangle).contains id))) := by
  have hcyc : hasDirectedCycle gTriangle := by
    refine ⟨"A", ?_⟩
    refine Relation.TransGen.head ⟨⟨"e1", "A", "o", "B", "i"⟩, by decide, rfl, rfl⟩ ?_
    refine Relation.TransGen.head ⟨⟨"e2", "B", "o", "C", "i"⟩, by decide, rfl, rfl⟩ ?_
    exact Relation.TransGen.single ⟨⟨"e3", "C", "o", "A", "i"⟩, by decide, rfl, rfl⟩
  exact ⟨hcyc,
    (C3_cycle_detection_and_topological_sort gTriangle (by decide) (by decide)
      (by decide)).1 hcyc⟩

/-! ## Claim C4 — type inference fails exactly on sort failure -/

theorem find_node_of_nodup (l : List WorkflowNode)
    (h : (l.map (fun n => n.id)).Nodup) (n : WorkflowNode) (hn : n ∈ l) :
    l.find? (fun m => m.id == n.id) = some n := by
  induction l with
  | nil => cases hn
  | cons a t ih =>
      simp only [List.map_cons, List.nodup_cons] at h
      rcases List.mem_cons.mp hn with h' | h'
      · subst h'
        exact List.find?_cons_of_pos _ (by simp)
      · have hne : a.id ≠ n.id := by
          intro hEq
          exact (hEq ▸ h.1) (List.mem_map.mpr ⟨n, h', rfl⟩)
        rw [List.find?_cons_of_neg _ (by simp [hne])]
        exact ih h.2 h'

theorem lookupM_insertEntry_isSome {α : Type} (m : List (String × α)) (k : String)
    (v : α) (key : String) (h : (lookupM m key).isSome = true) :
    (lookupM (insertEntry m k v) key).isSome = true := by
  by_cases hk : key = k
  · subst hk
    rw [lookupM_insertEntry_self]
    rfl
  · rw [lookupM_insertEntry_ne m k v key hk]
    exact h

theorem propagateTypes_isSome_mono (g : WorkflowGraph) (sid : String)
    (m : List (String × InferredType)) (key : String)
    (h : (lookupM m key).isSome = true) :
    (lookupM (propagateTypes g sid m) key).isSome = true := by
  rw [propagateTypes]
  generalize (g.edges.filter fun e => e.source == sid) = l
  revert h
  induction l generalizing m with
  | nil =>
      intro h
      simpa using h
  | cons e t ih =>
      intro h
      rw [List.foldl_cons]
      apply ih
      cases hlk : lookupM m (mkKey e.source e.sourcePort) with
      | none => simpa [hlk] using h
      | some st =>
          simp only [hlk]
          exact lookupM_insertEntry_isSome _ _ _ _ h

theorem outputsFold_isSome_mono (nid : String) (outs : List Port)
    (m : List (String × InferredType)) (key : String)
    (h : (lookupM m key).isSome = true) :
    (lookupM (outs.foldl (fun m output =>
        insertEntry m (mkKey nid output.id) ⟨nid, output.id, output.portType, none⟩) m)
      key).isSome = true := by
  revert h
  induction outs generalizing m with
  | nil =>
      intro h
      simpa using h
  | cons o t ih =>
      intro h
      rw [List.foldl_cons]
      exact ih _ (lookupM_insertEntry_isSome _ _ _ _ h)

theorem outputsFold_isSome_self (nid : String) (outs : List Port)
    (m : List (String × InferredType)) (o : Port) (ho : o ∈ outs) :
    (lookupM (outs.foldl (fun m output =>
        insertEntry m (mkKey nid output.id) ⟨nid, output.id, output.portType, none⟩) m)
      (mkKey nid o.id)).isSome = true := by
  revert ho
  induction outs generalizing m with
  | nil =>
      intro ho
      cases ho
  | cons a t ih =>
      intro ho
      rw [List.foldl_cons]
      rcases List.mem_cons.mp ho with h' | h'
      · subst h'
        apply outputsFold_isSome_mono
        rw [lookupM_insertEntry_self]
        rfl
      · exact ih _ h'

theorem inferNodeTypes_isSome_mono (g : WorkflowGraph) (nodeId : String)
    (m : List (String × InferredType)) (key : String)
    (h : (lookupM m key).isSome = true) :
    (lookupM (inferNodeTypes g nodeId m) key).isSome = true := by
  rw [inferNodeTypes]
  cases hf : g.nodes.find? (fun n => n.id == nodeId) with
  | none => simpa using h
  | some node =>
      exact propagateTypes_isSome_mono _ _ _ _ (outputsFold_isSome_mono _ _ _ _ h)

theorem inferNodeTypes_covers (g : WorkflowGraph)
    (hN : (g.nodes.map (fun n => n.id)).Nodup)
    (n : WorkflowNode) (hn : n ∈ g.nodes) (o : Port) (ho : o ∈ n.outputs)
    (m : List (String × InferredType)) :
    (lookupM (inferNodeTypes g n.id m) (mkKey n.id o.id)).isSome = true := by
  rw [inferNodeTypes, find_node_of_nodup g.nodes hN n hn]
  exact propagateTypes_isSome_mono _ _ _ _ (outputsFold_isSome_self _ _ _ _ ho)

theorem inferFold_isSome_mono (g : WorkflowGraph) (order : List String)
    (m : List (String × InferredType)) (key : String)
    (h : (lookupM m key).isSome = true) :
    (lookupM (order.foldl (fun m nodeId => inferNodeTypes g nodeId m) m)
      key).isSome = true := by
  revert h
  induction order generalizing m with
  | nil =>
      intro h
      simpa using h
  | cons a t ih =>
      intro h
      rw [List.foldl_cons]
      exact ih _ (inferNodeTypes_isSome_mono _ _ _ _ h)

theorem inferFold_covers (g : WorkflowGraph)
    (hN : (g.nodes.map (fun n => n.id)).Nodup)
    (order : List String) (m : List (String × InferredType))
    (n : WorkflowNode) (hn : n ∈ g.nodes) (hmem : n.id ∈ order)
    (o : Port) (ho : o ∈ n.outputs) :
    (lookupM (order.foldl (fun m nodeId => inferNodeTypes g nodeId m) m)
      (mkKey n.id o.id)).isSome = true := by
  obtain ⟨s, t, hst⟩ := List.append_of_mem hmem
  subst hst
  rw [List.foldl_append, List.foldl_cons]
  exact inferFold_isSome_mono _ _ _ _ (inferNodeTypes_covers g hN n hn o ho _)

/-- C4 (amended to well-formed graphs: distinct node ids, distinct edge
ids, and edge endpoints that exist): `inferTypes` throws exactly when
`topologicalSort` fails, which on such graphs happens exactly when the
graph contains a directed cycle; the throw happens before any entry is
written, so the inferred-type map is left empty; and on acyclic graphs
there is no error and the map holds an entry for every declared output
port of every node. -/
theorem C4_infer_types_cycle_failure (g : WorkflowGraph)
    (hN : (g.nodes.map (fun n => n.id)).Nodup)
    (hE : (g.edges.map (fun e => e.id)).Nodup)
    (hEnds : ∀ e ∈ g.edges, e.source ∈ g.nodes.map (fun n => n.id) ∧
                            e.target ∈ g.nodes.map (fun n => n.id)) :
    ((inferTypesRun g).1.isSome = true ↔
      (∃ r p, topologicalSort g = TopSortResult.failure r p)) ∧
    ((inferTypesRun g).1.isSome = true ↔ hasDirectedCycle g) ∧
    ((inferTypesRun g).1.isSome = true →
      inferTypesRun g = (some "Cannot infer types: graph contains cycles", [])) ∧
    (¬ hasDirectedCycle g →
      (inferTypesRun g).1 = none ∧
      ∀ n ∈ g.nodes, ∀ o ∈ n.outputs,
        (lookupM ((inferTypesRun g).2) (mkKey n.id o.id)).isSome = true) := by
  have hclean := cleanAdj_of_ends g hEnds
  have hkeyslen : (nodeKeys g).length = (nodesMap g).length := by
    rw [nodeKeys, List.length_map]
  have hacyc_of : ¬ hasDirectedCycle g → ¬ ∃ v, Relation.TransGen (stepAdj g) v v := by
    intro hnc
    rintro ⟨v, hv⟩
    exact hnc ⟨v, (transGen_stepRel_iff_stepAdj g hE v v).mpr hv⟩
  have hsuccess : ¬ hasDirectedCycle g → topologicalSort g = .success (kahnRun g) := by
    intro hnc
    have hperm := kahnRun_perm_keys g hclean (hacyc_of hnc)
    rw [topologicalSort]
    rw [if_neg (by rw [hperm.length_eq, hkeyslen]; exact fun hc => hc rfl)]
  have hfail : hasDirectedCycle g → ∃ r p, topologicalSort g = .failure r p := by
    rintro ⟨v, hv⟩
    have hv' := (transGen_stepRel_iff_stepAdj g hE v v).mp hv
    have hlt := kahnRun_length_lt g hclean v (cycle_node_mem_keys g hclean v hv')
      (kahnRun_cycle_not_mem g hclean v hv')
    refine ⟨"Graph contains cycles",
      (nodeKeys g).filter (fun id => ! (kahnRun g).contains id), ?_⟩
    rw [topologicalSort]
    rw [if_pos (by omega)]
  have herr : (inferTypesRun g).1.isSome = true ↔
      (∃ r p, topologicalSort g = TopSortResult.failure r p) := by
    rw [inferTypesRun]
    cases hts : topologicalSort g with
    | success order =>
        constructor
        · intro hcontra
          simp at hcontra
        · rintro ⟨r, p, hrp⟩
          exact absurd hrp (by simp)
    | failure r p =>
        exact ⟨fun _ => ⟨r, p, rfl⟩, fun _ => rfl⟩
  have hcyc_iff : (inferTypesRun g).1.isSome = true ↔ hasDirectedCycle g := by
    rw [herr]
    constructor
    · rintro ⟨r, p, hrp⟩
      by_contra hnc
      rw [hsuccess hnc] at hrp
      exact absurd hrp (by simp)
    · exact hfail
  refine ⟨herr, hcyc_iff, ?_, ?_⟩
  · intro hs
    obtain ⟨r, p, hrp⟩ := herr.mp hs
    rw [inferTypesRun, hrp]
  · intro hnc
    have hts := hsuccess hnc
    have h2 : inferTypesRun g =
        (none, (kahnRun g).foldl (fun m nodeId => inferNodeTypes g nodeId m) []) := by
      rw [inferTypesRun, hts]
    refine ⟨by rw [h2], ?_⟩
    intro n hn o ho
    rw [h2]
    have hmemk : n.id ∈ nodeKeys g :=
      (mem_nodeKeys_iff g _).mpr (List.mem_map.mpr ⟨n, hn, rfl⟩)
    have hmem : n.id ∈ kahnRun g :=
      kahnRun_complete g hclean (hacyc_of hnc) _ hmemk
    exact inferFold_covers g hN _ _ n hn hmem o ho

/-- C4 counterexample (the claim as frozen, over all graphs): the acyclic
graph `gPhantomSource` makes `topologicalSort` — and hence `inferTypes` —
fail although it contains no directed cycle, leaving the map empty where
the claim promises a full map without error for acyclic graphs. -/
theorem C4_counterexample_acyclic_inference_failure :
    inferTypesRun gPhantomSource =
      (some "Cannot infer types: graph contains cycles", []) ∧
    ¬ hasDirectedCycle gPhantomSource :=
  ⟨by decide, gPhantomSource_acyclic⟩

/-- C4 witness: the amended theorem applied to the acyclic chain `gChain`. -/
theorem C4_infer_types_cycle_failure_witness :
    ((inferTypesRun gChain).1.isSome = true ↔
      (∃ r p, topologicalSort gChain = TopSortResult.failure r p)) ∧
    ((inferTypesRun gChain).1.isSome = true ↔ hasDirectedCycle gChain) ∧
    ((inferTypesRun gChain).1.isSome = true →
      inferTypesRun gChain = (some "Cannot infer types: graph contains cycles", [])) ∧
    (¬ hasDirectedCycle gChain →
      (inferTypesRun gChain).1 = none ∧
      ∀ n ∈ gChain.nodes, ∀ o ∈ n.outputs,
        (lookupM ((inferTypesRun gChain).2) (mkKey n.id o.id)).isSome = true) :=
  C4_infer_types_cycle_failure gChain (by decide) (by decide) (by decide)

/-! ## Claim C7 — orphan-node reporting -/

theorem orphan_cond_iff (g : WorkflowGraph) (id : String) :
    ((!(((edgeValues g).flatMap (fun e => [e.source, e.target])).contains id) &&
      decide (1 < (nodesMap g).length)) = true) ↔
    ((∀ e ∈ edgeValues g, e.source ≠ id ∧ e.target ≠ id) ∧
      1 < (nodesMap g).length) := by
  rw [Bool.and_eq_true, decide_eq_true_eq]
  constructor
  · rintro ⟨h1, h2⟩
    refine ⟨?_, h2⟩
    intro e he
    have hnm : id ∉ (edgeValues g).flatMap (fun e => [e.source, e.target]) := by
      simpa using h1
    constructor <;> intro hEq <;>
      exact hnm (List.mem_flatMap.mpr ⟨e, he, by simp [hEq]⟩)
  · rintro ⟨h1, h2⟩
    refine ⟨?_, h2⟩
    have hnm : id ∉ (edgeValues g).flatMap (fun e => [e.source, e.target]) := by
      intro hc
      obtain ⟨e, he, hm⟩ := List.mem_flatMap.mp hc
      rcases h1 e he with ⟨hs, ht⟩
      rcases List.mem_cons.mp hm with h' | h'
      · exact hs h'.symm
      · exact ht (List.mem_singleton.mp h').symm
    simpa using hnm

theorem mem_checkOrphanNodes (g : WorkflowGraph) (v : String) :
    GraphValidationError.orphanNode v ∈ checkOrphanNodes g ↔
      (v ∈ nodeKeys g ∧
       (∀ e ∈ edgeValues g, e.source ≠ v ∧ e.target ≠ v) ∧
       1 < (nodesMap g).length) := by
  rw [checkOrphanNodes]
  constructor
  · intro h
    obtain ⟨id, hid, hif⟩ := List.mem_filterMap.mp h
    split_ifs at hif with hc
    injection hif with h1
    injection h1 with h2
    subst h2
    exact ⟨hid, ((orphan_cond_iff g id).mp hc).1, ((orphan_cond_iff g id).mp hc).2⟩
  · rintro ⟨hv, hnt, hgt⟩
    refine List.mem_filterMap.mpr ⟨v, hv, ?_⟩
    rw [if_pos ((orphan_cond_iff g v).mpr ⟨hnt, hgt⟩)]

theorem orphan_not_in_dup (g : WorkflowGraph) (v : String) :
    GraphValidationError.orphanNode v ∉ checkDuplicateIds g := by
  intro hc
  rw [checkDuplicateIds] at hc
  rcases List.mem_append.mp hc with h' | h' <;>
    · obtain ⟨x, _, hx⟩ := List.mem_map.mp h'
      simp at hx

theorem orphan_not_in_missing (g : WorkflowGraph) (v : String) :
    GraphValidationError.orphanNode v ∉ checkMissingNodes g := by
  intro hc
  rw [checkMissingNodes] at hc
  obtain ⟨e, _, hm⟩ := List.mem_flatMap.mp hc
  rcases List.mem_append.mp hm with h' | h' <;> split_ifs at h' <;> simp at h'

theorem orphan_not_in_inputs (g : WorkflowGraph) (v : String) :
    GraphValidationError.orphanNode v ∉ checkInputSatisfaction g := by
  intro hc
  rw [checkInputSatisfaction] at hc
  obtain ⟨node, _, hm⟩ := List.mem_flatMap.mp hc
  obtain ⟨input, _, hif⟩ := List.mem_filterMap.mp hm
  split_ifs at hif
  simp at hif

theorem orphan_not_in_conn (g : WorkflowGraph) (v : String) :
    GraphValidationError.orphanNode v ∉ checkConnectionValidity g := by
  intro hc
  rw [checkConnectionValidity] at hc
  obtain ⟨e, _, hm⟩ := List.mem_filterMap.mp hc
  split at hm
  · split at hm
    · dsimp only at hm
      split at hm <;> exact absurd hm (by simp)
    · exact absurd hm (by simp)
  · exact absurd hm (by simp)

/-- C7 (amended to the dedup semantics the code actually has): `validate`
reports `orphan-node v` exactly when `v` is a key of the id-deduplicated
node map, no surviving (id-deduplicated) edge has `v` as source or target,
and the node map holds at least two entries.  In particular zero- and
one-entry node maps never produce the error and surviving-edge endpoints
are never reported; but a graph whose raw node list repeats one id escapes
the check even with many raw nodes, and a node touched only by a shadowed
duplicate-id edge is still reported. -/
theorem C7_orphan_node_reports (g : WorkflowGraph) (v : String) :
    GraphValidationError.orphanNode v ∈ (validate g).errors ↔
      (v ∈ nodeKeys g ∧
       (∀ e ∈ edgeValues g, e.source ≠ v ∧ e.target ≠ v) ∧
       1 < (nodesMap g).length) := by
  rw [← mem_checkOrphanNodes]
  simp only [validate, List.mem_append]
  constructor
  · rintro (((((h | h) | h) | h) | h) | h)
    · exact absurd h (orphan_not_in_dup g v)
    · exact absurd h (orphan_not_in_missing g v)
    · rcases hdc : detectCycles g with ⟨b, c⟩
      rw [hdc] at h
      cases b <;> simp at h
    · exact absurd h (orphan_not_in_inputs g v)
    · exact absurd h (orphan_not_in_conn g v)
    · exact h
  · intro h
    exact Or.inr h

/-- C7 counterexample (the claim as frozen): `gDup` has two (raw) nodes,
zero edges, and both nodes are touched by no edge, yet `validate` reports
no orphan-node error at all — only the duplicate-node-id error — because
the orphan check runs on the deduplicated node map, which has a single
entry. -/
theorem C7_counterexample_duplicate_ids_escape_orphan_check :
    gDup.edges = [] ∧ 1 < gDup.nodes.length ∧
    (validate gDup).errors = [GraphValidationError.duplicateNodeId "n"] ∧
    (validate gDup).errors.all (fun err =>
      match err with
      | GraphValidationError.orphanNode _ => false
      | _ => true) = true := by
  decide

/-! ## Claim C10 — the inference report -/

theorem stepAdj_acyclic_of (g : WorkflowGraph)
    (hE : (g.edges.map (fun e => e.id)).Nodup)
    (hnc : ¬ hasDirectedCycle g) :
    ¬ ∃ v, Relation.TransGen (stepAdj g) v v := by
  rintro ⟨v, hv⟩
  exact hnc ⟨v, (transGen_stepRel_iff_stepAdj g hE v v).mpr hv⟩

theorem topSort_success_of_acyclic (g : WorkflowGraph)
    (hE : (g.edges.map (fun e => e.id)).Nodup)
    (hEnds : ∀ e ∈ g.edges, e.source ∈ g.nodes.map (fun n => n.id) ∧
                            e.target ∈ g.nodes.map (fun n => n.id))
    (hnc : ¬ hasDirectedCycle g) :
    topologicalSort g = .success (kahnRun g) := by
  have hclean := cleanAdj_of_ends g hEnds
  have hperm := kahnRun_perm_keys g hclean (stepAdj_acyclic_of g hE hnc)
  rw [topologicalSort]
  rw [if_neg (by rw [hperm.length_eq, nodeKeys, List.length_map]; exact fun hc => hc rfl)]

theorem inferTypesRun_success_of_acyclic (g : WorkflowGraph)
    (hE : (g.edges.map (fun e => e.id)).Nodup)
    (hEnds : ∀ e ∈ g.edges, e.source ∈ g.nodes.map (fun n => n.id) ∧
                            e.target ∈ g.nodes.map (fun n => n.id))
    (hnc : ¬ hasDirectedCycle g) :
    inferTypesRun g =
      (none, (kahnRun g).foldl (fun m nodeId => inferNodeTypes g nodeId m) []) := by
  rw [inferTypesRun, topSort_success_of_acyclic g hE hEnds hnc]

theorem inferTypesRun_covers (g : WorkflowGraph)
    (hN : (g.nodes.map (fun n => n.id)).Nodup)
    (hE : (g.edges.map (fun e => e.id)).Nodup)
    (hEnds : ∀ e ∈ g.edges, e.source ∈ g.nodes.map (fun n => n.id) ∧
                            e.target ∈ g.nodes.map (fun n => n.id))
    (hnc : ¬ hasDirectedCycle g) :
    ∀ n ∈ g.nodes, ∀ o ∈ n.outputs,
      (lookupM ((inferTypesRun g).2) (mkKey n.id o.id)).isSome = true := by
  intro n hn o ho
  have hclean := cleanAdj_of_ends g hEnds
  rw [inferTypesRun_success_of_acyclic g hE hEnds hnc]
  have hmemk : n.id ∈ nodeKeys g :=
    (mem_nodeKeys_iff g _).mpr (List.mem_map.mpr ⟨n, hn, rfl⟩)
  exact inferFold_covers g hN _ _ n hn
    (kahnRun_complete g hclean (stepAdj_acyclic_of g hE hnc) _ hmemk) o ho

/-- C10 (amended: the output-coverage half needs distinct node ids — with
duplicated ids the shadowed node's outputs are never recorded):
`getInferenceReport().totalPorts` counts exactly the input ports of the
raw nodes, `inferredPorts` is the size of the whole store, and `complete`
agrees with `isInferenceComplete()`; on a well-formed acyclic graph the
store after `inferTypes` holds an entry for every declared output port of
every node, so `inferredPorts` can exceed `totalPorts`. -/
theorem C10_inference_report (g : WorkflowGraph)
    (hN : (g.nodes.map (fun n => n.id)).Nodup)
    (hE : (g.edges.map (fun e => e.id)).Nodup)
    (hEnds : ∀ e ∈ g.edges, e.source ∈ g.nodes.map (fun n => n.id) ∧
                            e.target ∈ g.nodes.map (fun n => n.id)) :
    (∀ m : List (String × InferredType),
        (getInferenceReport g m).totalPorts
          = (g.nodes.map (fun n => n.inputs.length)).sum) ∧
    (∀ m : List (String × InferredType),
        (getInferenceReport g m).inferredPorts = m.length) ∧
    (∀ m : List (String × InferredType),
        (getInferenceReport g m).complete = isInferenceComplete g m) ∧
    (¬ hasDirectedCycle g →
      ∀ n ∈ g.nodes, ∀ o ∈ n.outputs,
        (lookupM ((inferTypesRun g).2) (mkKey n.id o.id)).isSome = true) := by
  refine ⟨fun m => rfl, fun m => rfl, ?_, fun hnc => inferTypesRun_covers g hN hE hEnds hnc⟩
  intro m
  rw [Bool.eq_iff_iff]
  simp only [getInferenceReport, isInferenceComplete, List.isEmpty_iff,
    List.flatMap_eq_nil_iff, List.filterMap_eq_nil_iff, List.all_eq_true]
  constructor
  · intro h n hn i hi
    have h' := h n hn i hi
    cases hr : i.required
    · simp [hr]
    · cases hl : lookupM m (mkKey n.id i.id) with
      | none =>
          rw [hr, hl] at h'
          simp at h'
      | some x => simp [hr, hl]
  · intro h n hn i hi
    have h' := h n hn i hi
    cases hr : i.required
    · rw [if_neg (by simp [hr])]
    · cases hl : lookupM m (mkKey n.id i.id) with
      | none =>
          rw [hr, hl] at h'
          simp at h'
      | some x => rw [if_neg (by simp [hl])]

/-- C10 counterexample (the implicit "the map contains an entry for every
declared output port of every node" as frozen, over all graphs): in
`gDup2` inference succeeds, yet the output port `p2` declared by the
second node with id `n` has no entry — `inferNodeTypes` always resolves
the first raw node with a given id.  The report also shows
`inferredPorts = 1 > 0 = totalPorts`. -/
theorem C10_counterexample_duplicate_node_output_missing :
    (inferTypesRun gDup2).1 = none ∧
    lookupM ((inferTypesRun gDup2).2) (mkKey "n" "p2") = none ∧
    (getInferenceReport gDup2 ((inferTypesRun gDup2).2)).totalPorts = 0 ∧
    (getInferenceReport gDup2 ((inferTypesRun gDup2).2)).inferredPorts = 1 := by
  decide

/-- C10 witness: the amended theorem applied to `gChain`, plus the
concrete report there (`totalPorts = 1 < 3 = inferredPorts`). -/
theorem C10_inference_report_witness :
    ((∀ m : List (String × InferredType),
        (getInferenceReport gChain m).totalPorts
          = (gChain.nodes.map (fun n => n.inputs.length)).sum) ∧
     (∀ m : List (String × InferredType),
        (getInferenceReport gChain m).inferredPorts = m.length) ∧
     (∀ m : List (String × InferredType),
        (getInferenceReport gChain m).complete = isInferenceComplete gChain m) ∧
     (¬ hasDirectedCycle gChain →
       ∀ n ∈ gChain.nodes, ∀ o ∈ n.outputs,
         (lookupM ((inferTypesRun gChain).2) (mkKey n.id o.id)).isSome = true)) ∧
    (getInferenceReport gChain ((inferTypesRun gChain).2)).totalPorts = 1 ∧
    (getInferenceReport gChain ((inferTypesRun gChain).2)).inferredPorts = 3 :=
  ⟨C10_inference_report gChain (by decide) (by decide) (by decide),
   by decide, by decide⟩

/-! ## Claim C6 — propagation along edges -/

theorem outputsFold_lookup_preserve (nid : String) (outs : List Port)
    (m : List (String × InferredType)) (key : String)
    (h : ∀ o' ∈ outs, mkKey nid o'.id ≠ key) :
    lookupM (outs.foldl (fun m output =>
        insertEntry m (mkKey nid output.id) ⟨nid, output.id, output.portType, none⟩) m)
      key = lookupM m key := by
  revert h
  induction outs generalizing m with
  | nil => intro _; rfl
  | cons a t ih =>
      intro h
      rw [List.foldl_cons, ih _ (fun o' ho' => h o' (List.mem_cons_of_mem _ ho'))]
      exact lookupM_insertEntry_ne _ _ _ _ (Ne.symm (h a (List.mem_cons_self a t)))

theorem outputsFold_lookup_self (nid : String) (outs : List Port)
    (m : List (String × InferredType)) (o : Port) (ho : o ∈ outs)
    (huniq : ∀ o' ∈ outs, mkKey nid o'.id = mkKey nid o.id → o' = o) :
    lookupM (outs.foldl (fun m output =>
        insertEntry m (mkKey nid output.id) ⟨nid, output.id, output.portType, none⟩) m)
      (mkKey nid o.id) = some ⟨nid, o.id, o.portType, none⟩ := by
  revert ho huniq
  induction outs generalizing m with
  | nil => intro ho _; cases ho
  | cons a t ih =>
      intro ho huniq
      rw [List.foldl_cons]
      by_cases hot : o ∈ t
      · exact ih _ hot (fun o' ho' hk => huniq o' (List.mem_cons_of_mem _ ho') hk)
      · have hao : a = o := by
          rcases List.mem_cons.mp ho with h' | h'
          · exact h'.symm
          · exact absurd h' hot
        subst hao
        have hpr : ∀ o' ∈ t, mkKey nid o'.id ≠ mkKey nid a.id := by
          intro o' ho' hk
          exact hot (huniq o' (List.mem_cons_of_mem _ ho') hk ▸ ho')
        rw [outputsFold_lookup_preserve nid t _ _ hpr]
        exact lookupM_insertEntry_self _ _ _

theorem propFold_lookup_preserve (l : List Edge) (m : List (String × InferredType))
    (key : String)
    (h : ∀ e' ∈ l, mkKey e'.target e'.targetPort ≠ key) :
    lookupM (l.foldl
      (fun m e =>
        match lookupM m (mkKey e.source e.sourcePort) with
        | some sourceType =>
            insertEntry m (mkKey e.target e.targetPort)
              ⟨e.target, e.targetPort, sourceType.portType, some (e.source, e.sourcePort)⟩
        | none => m)
      m) key = lookupM m key := by
  revert h
  induction l generalizing m with
  | nil => intro _; rfl
  | cons e t ih =>
      intro h
      rw [List.foldl_cons, ih _ (fun e' he' => h e' (List.mem_cons_of_mem _ he'))]
      cases hlk : lookupM m (mkKey e.source e.sourcePort) with
      | none => simp only [hlk]
      | some st =>
          simp only [hlk]
          exact lookupM_insertEntry_ne _ _ _ _ (Ne.symm (h e (List.mem_cons_self e t)))

theorem inferNodeTypes_lookup_preserve (g : WorkflowGraph) (nodeId : String)
    (m : List (String × InferredType)) (key : String)
    (hout : ∀ n' ∈ g.nodes, ∀ o' ∈ n'.outputs, mkKey n'.id o'.id ≠ key)
    (hedge : ∀ e' ∈ g.edges, e'.source = nodeId → mkKey e'.target e'.targetPort ≠ key) :
    lookupM (inferNodeTypes g nodeId m) key = lookupM m key := by
  rw [inferNodeTypes]
  cases hf : g.nodes.find? (fun n => n.id == nodeId) with
  | none => rfl
  | some node =>
      have hmem : node ∈ g.nodes := List.mem_of_find?_eq_some hf
      have hid : node.id = nodeId := by
        have := List.find?_some hf
        simpa using this
      show lookupM (propagateTypes g nodeId
        (node.outputs.foldl (fun m output =>
          insertEntry m (mkKey nodeId output.id)
            ⟨nodeId, output.id, output.portType, none⟩) m)) key = lookupM m key
      have h1 : lookupM (node.outputs.foldl (fun m output =>
          insertEntry m (mkKey nodeId output.id)
            ⟨nodeId, output.id, output.portType, none⟩) m) key = lookupM m key := by
        apply outputsFold_lookup_preserve
        intro o' ho'
        have := hout node hmem o' ho'
        rw [hid] at this
        exact this
      have h2 : ∀ e' ∈ g.edges.filter (fun e => e.source == nodeId),
          mkKey e'.target e'.targetPort ≠ key := by
        intro e' he'
        have hm' := List.mem_filter.mp he'
        exact hedge e' hm'.1 (by simpa using hm'.2)
      rw [propagateTypes, propFold_lookup_preserve _ _ _ h2, h1]

theorem inferFold_lookup_preserve (g : WorkflowGraph) (ids : List String)
    (m : List (String × InferredType)) (key : String)
    (h : ∀ id ∈ ids, ∀ m', lookupM (inferNodeTypes g id m') key = lookupM m' key) :
    lookupM (ids.foldl (fun m nodeId => inferNodeTypes g nodeId m) m) key
      = lookupM m key := by
  revert h
  induction ids generalizing m with
  | nil => intro _; rfl
  | cons a t ih =>
      intro h
      rw [List.foldl_cons, ih _ (fun id hid => h id (List.mem_cons_of_mem _ hid))]
      exact h a (List.mem_cons_self a t) m

theorem inferNodeTypes_source (g : WorkflowGraph)
    (hN : (g.nodes.map (fun n => n.id)).Nodup)
    (hEdup : g.edges.Nodup)
    (n : WorkflowNode) (hn : n ∈ g.nodes)
    (o : Port) (ho : o ∈ n.outputs)
    (e : Edge) (he : e ∈ g.edges)
    (hsid : n.id = e.source) (hop : o.id = e.sourcePort)
    (huniqT : ∀ e' ∈ g.edges,
      mkKey e'.target e'.targetPort = mkKey e.target e.targetPort → e' = e)
    (hnoTS : ∀ e' ∈ g.edges, mkKey e'.target e'.targetPort ≠ mkKey e.source e.sourcePort)
    (houniq : ∀ o' ∈ n.outputs, mkKey n.id o'.id = mkKey n.id o.id → o' = o)
    (m : List (String × InferredType)) :
    lookupM (inferNodeTypes g e.source m) (mkKey e.target e.targetPort)
      = some ⟨e.target, e.targetPort, o.portType, some (e.source, e.sourcePort)⟩ := by
  have hfind : g.nodes.find? (fun nd => nd.id == e.source) = some n := by
    rw [← hsid]
    exact find_node_of_nodup g.nodes hN n hn
  rw [inferNodeTypes, hfind]
  show lookupM (propagateTypes g e.source
      (n.outputs.foldl (fun m output =>
        insertEntry m (mkKey e.source output.id)
          ⟨e.source, output.id, output.portType, none⟩) m))
    (mkKey e.target e.targetPort) = _
  set m0 := n.outputs.foldl (fun m output =>
      insertEntry m (mkKey e.source output.id)
        ⟨e.source, output.id, output.portType, none⟩) m with hm0def
  have hm0 : lookupM m0 (mkKey e.source o.id) = some ⟨e.source, o.id, o.portType, none⟩ := by
    rw [hm0def]
    apply outputsFold_lookup_self e.source n.outputs m o ho
    intro o' ho' hk
    apply houniq o' ho'
    rw [hsid]
    exact hk
  have hefilt : e ∈ g.edges.filter (fun e' => e'.source == e.source) :=
    List.mem_filter.mpr ⟨he, by simp⟩
  have hfiltdup : (g.edges.filter (fun e' => e'.source == e.source)).Nodup :=
    hEdup.filter _
  obtain ⟨l1, l2, hl⟩ := List.append_of_mem hefilt
  have hsub1 : ∀ x ∈ l1, x ∈ g.edges := by
    intro x hx
    have hx' : x ∈ g.edges.filter (fun e' => e'.source == e.source) := by
      rw [hl]
      exact List.mem_append.mpr (Or.inl hx)
    exact (List.mem_filter.mp hx').1
  have hsub2 : ∀ x ∈ l2, x ∈ g.edges := by
    intro x hx
    have hx' : x ∈ g.edges.filter (fun e' => e'.source == e.source) := by
      rw [hl]
      exact List.mem_append.mpr (Or.inr (List.mem_cons_of_mem _ hx))
    exact (List.mem_filter.mp hx').1
  have henl2 : e ∉ l2 := by
    rw [hl] at hfiltdup
    exact (List.nodup_cons.mp (List.Nodup.of_append_right hfiltdup)).1
  rw [propagateTypes, hl, List.foldl_append, List.foldl_cons]
  have hpres1 : lookupM (l1.foldl
      (fun m e =>
        match lookupM m (mkKey e.source e.sourcePort) with
        | some sourceType =>
            insertEntry m (mkKey e.target e.targetPort)
              ⟨e.target, e.targetPort, sourceType.portType, some (e.source, e.sourcePort)⟩
        | none => m)
      m0) (mkKey e.source e.sourcePort) = lookupM m0 (mkKey e.source e.sourcePort) :=
    propFold_lookup_preserve l1 m0 _ (fun e' he' => hnoTS e' (hsub1 e' he'))
  have hlook : lookupM (l1.foldl
      (fun m e =>
        match lookupM m (mkKey e.source e.sourcePort) with
        | some sourceType =>
            insertEntry m (mkKey e.target e.targetPort)
              ⟨e.target, e.targetPort, sourceType.portType, some (e.source, e.sourcePort)⟩
        | none => m)
      m0) (mkKey e.source e.sourcePort)
      = some ⟨e.source, o.id, o.portType, none⟩ := by
    rw [hpres1, ← hop, hm0]
  simp only [hlook]
  have hpr2 : ∀ e' ∈ l2, mkKey e'.target e'.targetPort ≠ mkKey e.target e.targetPort := by
    intro e' he' hk
    exact henl2 (huniqT e' (hsub2 e' he') hk ▸ he')
  rw [propFold_lookup_preserve l2 _ _ hpr2]
  exact lookupM_insertEntry_self _ _ _

/-- C6 (amended: the overwrite order at a shared target port is the node
processing order of the topological sort, not the edge-iteration order —
see the counterexample — so the per-edge entry is only guaranteed when the
writer is unique): on a well-formed acyclic graph, for an edge `e` whose
source resolves (under distinct node ids) to node `n` with declared output
port `o`, if no other edge writes `e`'s target key, no node declares an
output at that key, and no edge writes `e`'s source key, then after
`inferTypes` the entry at `target:targetPort` carries the declared type of
the source output and provenance `(e.source, e.sourcePort)`. -/
theorem C6_propagation_provenance (g : WorkflowGraph)
    (hN : (g.nodes.map (fun n => n.id)).Nodup)
    (hE : (g.edges.map (fun e => e.id)).Nodup)
    (hEnds : ∀ e ∈ g.edges, e.source ∈ g.nodes.map (fun n => n.id) ∧
                            e.target ∈ g.nodes.map (fun n => n.id))
    (hnc : ¬ hasDirectedCycle g)
    (n : WorkflowNode) (hn : n ∈ g.nodes)
    (o : Port) (ho : o ∈ n.outputs)
    (e : Edge) (he : e ∈ g.edges)
    (hsid : n.id = e.source) (hop : o.id = e.sourcePort)
    (huniqT : ∀ e' ∈ g.edges,
      mkKey e'.target e'.targetPort = mkKey e.target e.targetPort → e' = e)
    (hnoOutT : ∀ n' ∈ g.nodes, ∀ o' ∈ n'.outputs,
      mkKey n'.id o'.id ≠ mkKey e.target e.targetPort)
    (hnoTS : ∀ e' ∈ g.edges, mkKey e'.target e'.targetPort ≠ mkKey e.source e.sourcePort)
    (houniq : ∀ o' ∈ n.outputs, mkKey n.id o'.id = mkKey n.id o.id → o' = o) :
    lookupM ((inferTypesRun g).2) (mkKey e.target e.targetPort)
      = some ⟨e.target, e.targetPort, o.portType, some (e.source, e.sourcePort)⟩ := by
  have hclean := cleanAdj_of_ends g hEnds
  have hacyc := stepAdj_acyclic_of g hE hnc
  rw [inferTypesRun_success_of_acyclic g hE hEnds hnc]
  show lookupM ((kahnRun g).foldl (fun m nodeId => inferNodeTypes g nodeId m) [])
      (mkKey e.target e.targetPort)
    = some ⟨e.target, e.targetPort, o.portType, some (e.source, e.sourcePort)⟩
  have hsrcmem : e.source ∈ kahnRun g := by
    apply kahnRun_complete g hclean hacyc
    exact (mem_nodeKeys_iff g _).mpr (hEnds e he).1
  have hnodup : (kahnRun g).Nodup := (kahnRun_final g hclean).nodup
  obtain ⟨s, t, hst⟩ := List.append_of_mem hsrcmem
  have hsrct : e.source ∉ t := by
    rw [hst] at hnodup
    exact (List.nodup_cons.mp (List.Nodup.of_append_right hnodup)).1
  rw [hst, List.foldl_append, List.foldl_cons]
  have hpres : ∀ id ∈ t, ∀ m', lookupM (inferNodeTypes g id m')
      (mkKey e.target e.targetPort) = lookupM m' (mkKey e.target e.targetPort) := by
    intro id hid m'
    refine inferNodeTypes_lookup_preserve g id m' _ hnoOutT ?_
    intro e' he' hsrc hk
    have hee : e' = e := huniqT e' he' hk
    have h1 : e.source = id := by
      rw [← hee]
      exact hsrc
    exact hsrct (by rw [h1]; exact hid)
  rw [inferFold_lookup_preserve g t _ _ hpres]
  exact inferNodeTypes_source g hN (List.Nodup.of_map _ hE) n hn o ho e he hsid hop
    huniqT hnoTS houniq _

/-- `gC6` contains no directed cycle: both raw edges end in `D`, which has
no outgoing edge. -/
theorem gC6_acyclic : ¬ hasDirectedCycle gC6 := by
  rintro ⟨v, hv⟩
  have hsteps : ∀ a b, stepRel gC6 a b → b = "D" ∧ (a = "B" ∨ a = "A") := by
    intro a b h
    rcases h with ⟨e, he, h1, h2⟩
    have he' : e = ⟨"e1", "B", "o", "D", "i"⟩ ∨ e = ⟨"e2", "A", "o", "D", "i"⟩ := by
      simpa [gC6] using he
    rcases he' with h' | h' <;> subst h'
    · exact ⟨h2.symm, Or.inl h1.symm⟩
    · exact ⟨h2.symm, Or.inr h1.symm⟩
  have hlast : ∀ a b, Relation.TransGen (stepRel gC6) a b → b = "D" := by
    intro a b htg
    induction htg with
    | single h => exact (hsteps _ _ h).1
    | tail _ hs _ => exact (hsteps _ _ hs).1
  have hfirst : ∀ a b, Relation.TransGen (stepRel gC6) a b → (a = "B" ∨ a = "A") := by
    intro a b htg
    induction htg with
    | single h => exact (hsteps _ _ h).2
    | tail htg' _ ih => exact ih
  have h1 := hlast v v hv
  have h2 := hfirst v v hv
  rw [h1] at h2
  rcases h2 with h2 | h2 <;> exact absurd h2 (by decide)

/-- C6 counterexample (the "later writes overwrite earlier ones in
edge-iteration order" half as frozen): in the acyclic graph `gC6` the
edge list is `[B→D:i, A→D:i]`, so edge-iteration order predicts the final
entry at `D:i` to come from the later edge (`A`, type number); the actual
final entry comes from `B` (type string), because writes happen per source
node in topological processing order (`A` before `B`), not in edge order. -/
theorem C6_counterexample_processing_order_overwrite :
    ¬ hasDirectedCycle gC6 ∧
    gC6.edges = [⟨"e1", "B", "o", "D", "i"⟩, ⟨"e2", "A", "o", "D", "i"⟩] ∧
    lookupM ((inferTypesRun gC6).2) (mkKey "D" "i")
      = some ⟨"D", "i", PortType.string, some ("B", "o")⟩ :=
  ⟨gC6_acyclic, by decide, by decide⟩

/-- `gChain` contains no directed cycle: its single edge goes from `A` to
`B`. -/
theorem gChain_acyclic : ¬ hasDirectedCycle gChain := by
  rintro ⟨v, hv⟩
  have hsteps : ∀ a b, stepRel gChain a b → a = "A" ∧ b = "B" := by
    intro a b h
    rcases h with ⟨e, he, h1, h2⟩
    have he' : e = ⟨"e1", "A", "o", "B", "i"⟩ := by
      simpa [gChain] using he
    subst he'
    exact ⟨h1.symm, h2.symm⟩
  have hlast : ∀ a b, Relation.TransGen (stepRel gChain) a b → b = "B" := by
    intro a b htg
    induction htg with
    | single h => exact (hsteps _ _ h).2
    | tail _ hs _ => exact (hsteps _ _ hs).2
  have hfirst : ∀ a b, Relation.TransGen (stepRel gChain) a b → a = "A" := by
    intro a b htg
    induction htg with
    | single h => exact (hsteps _ _ h).1
    | tail htg' _ ih => exact ih
  have h1 := hlast v v hv
  have h2 := hfirst v v hv
  rw [h1] at h2
  exact absurd h2 (by decide)

/-- C6 witness: the amended theorem applied to the chain `A→B`, whose
single edge writes `B:i` with the number type declared at `A:o` and
provenance `(A, o)`. -/
theorem C6_propagation_provenance_witness :
    lookupM ((inferTypesRun gChain).2) (mkKey "B" "i")
      = some ⟨"B", "i", PortType.number, some ("A", "o")⟩ :=
  C6_propagation_provenance gChain (by decide) (by decide) (by decide)
    gChain_acyclic
    ⟨"A", "data.constant", "data", "A", [], [⟨"o", "o", .number, false⟩], []⟩
    (List.mem_cons_self _ _)
    ⟨"o", "o", .number, false⟩ (by decide)
    ⟨"e1", "A", "o", "B", "i"⟩ (by decide)
    rfl rfl
    (by decide) (by decide) (by decide) (by decide)

/-! ## Claim C9 — the validator sees the id-deduplicated graph -/

/-- C9: the validator's constructor collapses nodes and edges into
id-keyed maps (last occurrence wins), so every check other than the
duplicate-id check — `detectCycles`, `topologicalSort`,
`checkMissingNodes`, `checkInputSatisfaction`, `checkConnectionValidity`,
`checkOrphanNodes` — computes exactly the same answer on the graph as on
its id-deduplicated version; in particular an edge shadowed by a later
edge with the same id contributes nothing to cycle detection, adjacency,
input satisfaction, or connection validity. -/
theorem C9_checks_see_dedup_graph (g : WorkflowGraph) :
    detectCycles (dedupGraph g) = detectCycles g ∧
    topologicalSort (dedupGraph g) = topologicalSort g ∧
    checkMissingNodes (dedupGraph g) = checkMissingNodes g ∧
    checkInputSatisfaction (dedupGraph g) = checkInputSatisfaction g ∧
    checkConnectionValidity (dedupGraph g) = checkConnectionValidity g ∧
    checkOrphanNodes (dedupGraph g) = checkOrphanNodes g := by
  have hn := nodesMap_dedupGraph g
  have he := edgesMap_dedupGraph g
  refine ⟨?_, ?_, ?_, ?_, ?_, ?_⟩ <;>
    simp only [detectCycles, topologicalSort, checkMissingNodes, checkInputSatisfaction,
      checkConnectionValidity, checkOrphanNodes, kahnRun, kahnFuel, initInDegrees,
      buildAdjacencyList, dfsFuel, nodeKeys, nodeValues, edgeValues, hn, he]

end Workflow
